import Mathlib

/-!
Verification of the outline parsing core of Genie-Pdf-Djvu-Outliner
(`outline_parser_replit.py`): the beautifier (`is_beautified`,
`beautify_outline`), the normalizer (`normalize_outline`), the tree builder
(`parse_clean_outline`, `parse_outline`) and Roman/Arabic numeral conversion
(`convert_to_number`).

The embedding works on `List Char` (a Python `str` is modelled by the list of
its characters) with `String` wrappers carrying the source functions' names.
Python's regular expressions are embedded by their matching semantics
(existence / leftmost match of a decomposition of the character list), each
documented at its definition.  Whitespace is modelled by the ASCII whitespace
characters together with the C1 control quartet and NEL that Python's
`str.strip` / `\s` also accept; exotic Unicode whitespace is out of scope of
the model.
-/

/-- Characters treated as whitespace by the model (Python `str.strip`,
`str.split`, and regex `\s` on the inputs in scope). -/
def isWs (c : Char) : Bool :=
  c = ' ' || c = '\t' || c = '\n' || c = '\r' || c = '\x0b' || c = '\x0c' ||
  c = '\x1c' || c = '\x1d' || c = '\x1e' || c = '\x1f' || c = '\x85'

/-- ASCII decimal digit (Python `str.isdigit` / regex `\d` restricted to ASCII). -/
def isDigit (c : Char) : Bool :=
  '0' ≤ c && c ≤ '9'

/-- Uppercase Roman numeral letters: the character class `[IVXLCDM]` used by
every page-number regex in the source. -/
def isRomanU (c : Char) : Bool :=
  c = 'I' || c = 'V' || c = 'X' || c = 'L' || c = 'C' || c = 'D' || c = 'M'

/-- Lowercase Roman numeral letters, as they appear in the spec grammar
`roman_numeral := [IVXLCDMivxlcdm]+` (the code itself never matches them). -/
def isRomanL (c : Char) : Bool :=
  c = 'i' || c = 'v' || c = 'x' || c = 'l' || c = 'c' || c = 'd' || c = 'm'

/-- Line-boundary characters of Python `str.splitlines`
(`\r\n` is handled as one boundary by `splitLinesChars`). -/
def isLB (c : Char) : Bool :=
  c = '\n' || c = '\r' || c = '\x0b' || c = '\x0c' ||
  c = '\x1c' || c = '\x1d' || c = '\x1e' || c = '\x85' ||
  c = ' ' || c = ' '

/-- `str.lstrip()`. -/
def lstripL (l : List Char) : List Char := l.dropWhile (fun c => isWs c)

/-- `str.rstrip()`. -/
def rstripL (l : List Char) : List Char := (l.reverse.dropWhile (fun c => isWs c)).reverse

/-- `str.strip()`. -/
def stripL (l : List Char) : List Char := lstripL (rstripL l)

/-- `len(line) - len(line.lstrip())`: the number of leading whitespace
characters, the source's indentation measure. -/
def leadingWs (l : List Char) : Nat := (l.takeWhile (fun c => isWs c)).length

/-- A run of `n` spaces. -/
def spaces (n : Nat) : List Char := List.replicate n ' '

/-- Python `str.splitlines`: split at line-boundary characters, treating
`\r\n` as a single boundary; a trailing boundary does not produce an extra
empty line; `"".splitlines() == []`. -/
def splitLinesChars : List Char → List (List Char) :=
  go []
where
  go (acc : List Char) : List Char → List (List Char)
    | [] => [acc.reverse]
    | c :: rest =>
      if c = '\r' then
        match rest with
        | '\n' :: r => acc.reverse :: (if r.isEmpty then [] else go [] r)
        | r => acc.reverse :: (if r.isEmpty then [] else go [] r)
      else if isLB c then
        acc.reverse :: (if rest.isEmpty then [] else go [] rest)
      else
        go (c :: acc) rest

/-- `splitlines` of the empty string is the empty list. -/
def splitlinesL (l : List Char) : List (List Char) :=
  if l.isEmpty then [] else splitLinesChars l

/-- `'\n'.join(lines)`. -/
def joinN : List (List Char) → List Char
  | [] => []
  | [l] => l
  | l :: rest => l ++ '\n' :: joinN rest

/-- Python `str.expandtabs(4)`: each tab advances the column to the next
multiple of 4; `\n` and `\r` reset the column. -/
def expandtabsGo : Nat → List Char → List Char
  | _, [] => []
  | col, c :: rest =>
    if c = '\t' then
      spaces (4 - col % 4) ++ expandtabsGo (col + (4 - col % 4)) rest
    else if c = '\n' || c = '\r' then
      c :: expandtabsGo 0 rest
    else
      c :: expandtabsGo (col + 1) rest

def expandtabs4 (l : List Char) : List Char := expandtabsGo 0 l

/-! ## Numeral conversion (`convert_to_number`, source lines 194-209) -/

/-- `roman_map.get(char, 0)` of the source: values of `I V X L C D M`,
any other character contributes 0. -/
def romanVal (c : Char) : Int :=
  if c = 'I' then 1 else if c = 'V' then 5 else if c = 'X' then 10
  else if c = 'L' then 50 else if c = 'C' then 100 else if c = 'D' then 500
  else if c = 'M' then 1000 else 0

/-- `int(page_str)` for a digit string. -/
def decimalVal (l : List Char) : Int :=
  l.foldl (fun a c => a * 10 + ((c.toNat - 48 : Nat) : Int)) 0

/-- One iteration of the source's Roman loop: state is
`(result, prev_value)`; `result += -value if value < prev_value else value`. -/
def romanStep (s : Int × Int) (c : Char) : Int × Int :=
  let v := romanVal c.toUpper
  (s.1 + (if v < s.2 then -v else v), v)

/-- `convert_to_number` (source lines 194-209): empty string converts to 0,
a pure digit string to its decimal value, anything else is scanned in
reverse with `romanStep` and the result floored at 0. -/
def convertL (l : List Char) : Int :=
  if l.isEmpty then 0
  else if l.all (fun c => isDigit c) then decimalVal l
  else max (l.reverse.foldl romanStep (0, 0)).1 0

def convert_to_number (s : String) : Int := convertL s.data

/-- Right-to-left Roman scan where each letter is compared with the value of
the letter immediately to its right (the code's `prev_value` rule), written
as structural recursion on the reversed character list. -/
def romanScanPrev : Int → List Char → Int
  | _, [] => 0
  | p, c :: rest =>
    let v := romanVal c.toUpper
    (if v < p then -v else v) + romanScanPrev v rest

/-- Modelled from the spec: right-to-left Roman scan where each letter is
compared with the *running maximum* value seen so far in the scan, which is
the subtraction rule the spec (and claim C1) states. -/
def romanScanMax : Int → List Char → Int
  | _, [] => 0
  | m, c :: rest =>
    let v := romanVal c.toUpper
    (if v < m then -v else v) + romanScanMax (max m v) rest

/-- Modelled from the spec: `convert_to_number` as claim C1 describes it,
with the running-maximum subtraction rule. -/
def convertSpecMax (l : List Char) : Int :=
  if l.isEmpty then 0
  else if l.all (fun c => isDigit c) then decimalVal l
  else max (romanScanMax 0 l.reverse) 0

lemma romanStep_foldl (rl : List Char) :
    ∀ r p : Int, (rl.foldl romanStep (r, p)).1 = r + romanScanPrev p rl := by
  induction rl with
  | nil => intro r p; simp [romanScanPrev]
  | cons c rest ih =>
    intro r p
    simp only [List.foldl_cons, romanScanPrev, romanStep]
    rw [ih]
    ring

/-- C1 (amended): `convert_to_number` returns the decimal value on a pure
digit string, 0 on the empty string, and otherwise the right-to-left scan
that subtracts a letter exactly when its value is less than the value of the
letter immediately to its right (unknown letters counting 0), floored at 0. -/
theorem convert_to_number_prev_rule (s : String) :
    convert_to_number s =
      if s.data.isEmpty then 0
      else if s.data.all (fun c => isDigit c) then decimalVal s.data
      else max (romanScanPrev 0 s.data.reverse) 0 := by
  show convertL s.data = _
  unfold convertL
  rcases h : s.data.isEmpty with _ | _
  · simp only [h, Bool.false_eq_true, if_false]
    rcases h2 : s.data.all (fun c => isDigit c) with _ | _
    · simp only [h2, Bool.false_eq_true, if_false]
      rw [show ((0 : Int), (0 : Int)) = ((0 : Int), (0 : Int)) from rfl,
        romanStep_foldl s.data.reverse 0 0]
      simp
    · simp [h2]
  · simp [h]

/-- Closed instance of `convert_to_number_prev_rule` at `"VIX"`. -/
theorem convert_to_number_prev_rule_witness :
    convert_to_number "VIX" =
      (if "VIX".data.isEmpty then 0
       else if "VIX".data.all (fun c => isDigit c) then decimalVal "VIX".data
       else max (romanScanPrev 0 "VIX".data.reverse) 0) :=
  convert_to_number_prev_rule "VIX"

/-- C1 counterexample: on the malformed numeral `"VIX"` the code returns 14
(the `prev_value` rule adds the final `V` because 5 ≥ 1), while the claim's
running-maximum rule yields 4 — and the claim's "malformed numerals convert
to 0" clause would give 0; so the claim as stated fails at `"VIX"`. -/
theorem convert_to_number_runmax_counterexample :
    convert_to_number "VIX" = 14 ∧ convertSpecMax "VIX".data = 4 ∧
      convert_to_number "VIX" ≠ 0 := by
  refine ⟨by decide, by decide, by decide⟩

/-! ## The beautifier (`is_beautified`, `beautify_outline`, source lines 12-86) -/

/-- `re.search(r'\d+$', content)` as a Bool: the content ends with a digit. -/
def endsDigit (c : List Char) : Bool :=
  match c.reverse with
  | d :: _ => isDigit d
  | [] => false

/-- `re.search(r'^.*[^\s]\s[0-9]+$', content)` by its matching semantics:
some decomposition `content = a ++ n :: w :: d` with `n` non-whitespace,
`w` whitespace, and `d` a nonempty digit run reaching the end of the line. -/
def rex1 : List Char → Bool
  | n :: w :: rest =>
    (!isWs n && isWs w && !rest.isEmpty && rest.all (fun c => isDigit c)) ||
      rex1 (w :: rest)
  | _ => false

/-- `\s*` followed by a nonempty digit run reaching the end. -/
def wsThenDigits (l : List Char) : Bool :=
  let r := l.dropWhile (fun c => isWs c)
  !r.isEmpty && r.all (fun c => isDigit c)

/-- `re.search(r'\s{2,}\d+$', content)` by its matching semantics: some
decomposition `content = a ++ w1 :: w2 :: m` with `w1 w2` whitespace and `m`
a (possibly empty) whitespace run followed by digits reaching the end. -/
def rex2 : List Char → Bool
  | w1 :: w2 :: rest =>
    (isWs w1 && isWs w2 && wsThenDigits rest) || rex2 (w2 :: rest)
  | _ => false

/-- The per-line acceptance test of `is_beautified` (source lines 21-42):
blank lines pass; otherwise the indentation must be a multiple of 4 and a
line ending in digits must match `^.*[^\s]\s[0-9]+$` and not `\s{2,}\d+$`. -/
def beautLineOK (line : List Char) : Bool :=
  let content := stripL line
  if content.isEmpty then true
  else
    decide (leadingWs line % 4 = 0) &&
      (if endsDigit content then rex1 content && !rex2 content else true)

/-- `is_beautified` (source lines 12-44): false on an empty line list,
otherwise every line must pass `beautLineOK`. -/
def isBeautifiedL (l : List Char) : Bool :=
  let lines := splitlinesL l
  if lines.isEmpty then false
  else lines.all beautLineOK

def is_beautified (s : String) : Bool := isBeautifiedL s.data

/-- The match of `re.split(r'\s+(\d+)$', content, 1)`: the digit group is the
maximal trailing digit run (a shorter run would be preceded by a digit, not
`\s`), the `\s+` part the maximal whitespace run before it (leftmost match),
and the returned prefix is everything before the match. -/
def splitWsDigits (c : List Char) : Option (List Char × List Char) :=
  let rc := c.reverse
  let r := rc.takeWhile (fun x => isDigit x)
  if r.isEmpty then none
  else
    let rest := rc.drop r.length
    let w := rest.takeWhile (fun x => isWs x)
    if w.isEmpty then none
    else some ((rest.drop w.length).reverse, r.reverse)

/-- Lines 72-80 of the source: re-split a line's content at the trailing
digit run and re-join with exactly one space; content without such a split
is left unchanged. -/
def resplitCode (c : List Char) : List Char :=
  match splitWsDigits (stripL c) with
  | some (pre, d) => rstripL pre ++ ' ' :: d
  | none => c

/-- The `(level, content)` data `beautify_outline` extracts from each
non-blank line (source lines 58-80). -/
def beautInfos (lines : List (List Char)) : List (Nat × List Char) :=
  lines.filterMap fun line =>
    let content := stripL line
    if content.isEmpty then none
    else some (leadingWs line / 4, resplitCode content)

/-- Emission loop of `beautify_outline` (source lines 66-84): re-indent with
`4 * level` spaces and insert one blank line before every level-0 line except
the first emitted one; the `Int` argument is the source's
`last_indent_level`, initially `-1`. -/
def emitLines : Int → List (Nat × List Char) → List (List Char)
  | _, [] => []
  | last, (k, c) :: rest =>
    (if k = 0 ∧ last ≠ -1 then [([] : List Char)] else []) ++
      ((spaces (4 * k) ++ c) :: emitLines (k : Int) rest)

/-- The non-short-circuit path of `beautify_outline` (source lines 52-86). -/
def beautifyBody (l : List Char) : List Char :=
  joinN (emitLines (-1) (beautInfos (splitlinesL l)))

/-- `beautify_outline` (source lines 46-86): return the input unchanged when
`is_beautified` accepts it, else rebuild it with `beautifyBody`. -/
def beautifyL (l : List Char) : List Char :=
  if isBeautifiedL l then l else beautifyBody l

def beautify_outline (s : String) : String := ⟨beautifyL s.data⟩

/-- C10: `is_beautified` is not a complete fixpoint test for
`beautify_outline`: on the single line `"42"` beautification changes nothing,
yet `is_beautified` rejects it (a trailing digit run not preceded by
one-nonspace-one-space), so a caller using `is_beautified` to skip work still
re-runs `beautify_outline` on some of its fixpoints. -/
theorem is_beautified_incomplete_fixpoint_test :
    beautify_outline "42" = "42" ∧ is_beautified "42" = false := by
  constructor
  · rfl
  · rfl

/-- Modelled from the claim's words (C4), with "space" read literally as the
space character: the maximal trailing digit run, when present, must be
preceded by exactly one space which is itself preceded by a non-space
character. -/
def claimTailOKspace (c : List Char) : Bool :=
  let rc := c.reverse
  let r := rc.takeWhile (fun x => isDigit x)
  r.isEmpty ||
    (match rc.drop r.length with
     | w :: n :: _ => w = ' ' && !(n = ' ')
     | _ => false)

/-- Modelled from the claim's words (C4): per-line condition with the
literal-space reading of the trailing-digit rule. -/
def claimLineOKspace (line : List Char) : Bool :=
  (stripL line).isEmpty ||
    (decide (leadingWs line % 4 = 0) && claimTailOKspace (stripL line))

/-- The per-line condition of the amended claim C4: the maximal trailing
digit run, when present, is preceded by exactly one whitespace character
which is itself preceded by a non-whitespace character. -/
def claimTailOK (c : List Char) : Bool :=
  let rc := c.reverse
  let r := rc.takeWhile (fun x => isDigit x)
  r.isEmpty ||
    (match rc.drop r.length with
     | w :: n :: _ => isWs w && !isWs n
     | _ => false)

/-- Per-line condition of the amended claim C4. -/
def claimLineOK (line : List Char) : Bool :=
  (stripL line).isEmpty ||
    (decide (leadingWs line % 4 = 0) && claimTailOK (stripL line))

/-- C4 counterexample: the claimed iff fails in both directions: the empty
string has no non-blank line (the claimed condition holds vacuously) yet
`is_beautified` returns false, and on `"a\t12"` `is_beautified` returns true
although the trailing digit run is preceded by a tab, not a space. -/
theorem is_beautified_claim_counterexample :
    (is_beautified "" = false ∧
      (splitlinesL "".data).all claimLineOKspace = true) ∧
    (is_beautified "a\t12" = true ∧
      (splitlinesL "a\t12".data).all claimLineOKspace = false) := by
  exact ⟨⟨rfl, rfl⟩, ⟨rfl, rfl⟩⟩

lemma isWs_not_isDigit {c : Char} (h : isWs c = true) : isDigit c = false := by
  unfold isWs at h
  simp only [Bool.or_eq_true, decide_eq_true_eq] at h
  rcases h with ((((((((((h | h) | h) | h) | h) | h) | h) | h) | h) | h) | h) <;>
    subst h <;> decide

lemma takeWhile_append_all {p : Char → Bool} {D : List Char} (rest : List Char)
    (h : D.all p = true) :
    (D ++ rest).takeWhile p = D ++ rest.takeWhile p := by
  induction D with
  | nil => simp
  | cons x xs ih =>
    simp only [List.all_cons, Bool.and_eq_true] at h
    simp [List.takeWhile_cons, h.1, ih h.2]

lemma dropWhile_append_all {p : Char → Bool} {D : List Char} (rest : List Char)
    (h : D.all p = true) :
    (D ++ rest).dropWhile p = rest.dropWhile p := by
  induction D with
  | nil => simp
  | cons x xs ih =>
    simp only [List.all_cons, Bool.and_eq_true] at h
    simp [List.dropWhile_cons, h.1, ih h.2]

lemma rex1_iff (c : List Char) :
    rex1 c = true ↔
      ∃ a n w d, c = a ++ n :: w :: d ∧ isWs n = false ∧ isWs w = true ∧
        d ≠ [] ∧ d.all (fun x => isDigit x) = true := by
  induction c with
  | nil =>
    simp only [rex1]
    constructor
    · intro h; exact absurd h (by decide)
    · rintro ⟨a, n, w, d, h, -⟩; cases a <;> simp_all
  | cons x t ih =>
    cases t with
    | nil =>
      simp only [rex1]
      constructor
      · intro h; exact absurd h (by decide)
      · rintro ⟨a, n, w, d, h, -⟩
        cases a with
        | nil => simp_all
        | cons y ys => cases ys <;> simp_all
    | cons y r =>
      rw [show rex1 (x :: y :: r) =
            ((!isWs x && isWs y && !r.isEmpty && r.all (fun c => isDigit c)) ||
              rex1 (y :: r)) from rfl]
      constructor
      · intro h
        rcases Bool.or_eq_true_iff.mp h with h1 | h2
        · refine ⟨[], x, y, r, rfl, ?_, ?_, ?_, ?_⟩ <;> simp_all
        · rcases ih.mp h2 with ⟨a, n, w, d, he, hn, hw, hd, hall⟩
          exact ⟨x :: a, n, w, d, by simp [he], hn, hw, hd, hall⟩
      · rintro ⟨a, n, w, d, he, hn, hw, hd, hall⟩
        cases a with
        | nil =>
          apply Bool.or_eq_true_iff.mpr
          left
          obtain ⟨hx, hyw, hrd⟩ : x = n ∧ y = w ∧ r = d := by
            simpa using he
          subst hx; subst hyw; subst hrd
          simp_all
        | cons a0 a' =>
          apply Bool.or_eq_true_iff.mpr
          right
          obtain ⟨-, htail⟩ : x = a0 ∧ y :: r = a' ++ n :: w :: d := by
            simpa using he
          exact ih.mpr ⟨a', n, w, d, htail, hn, hw, hd, hall⟩

lemma rex2_iff (c : List Char) :
    rex2 c = true ↔
      ∃ a w1 w2 m, c = a ++ w1 :: w2 :: m ∧ isWs w1 = true ∧ isWs w2 = true ∧
        wsThenDigits m = true := by
  induction c with
  | nil =>
    simp only [rex2]
    constructor
    · intro h; exact absurd h (by decide)
    · rintro ⟨a, w1, w2, m, h, -⟩; cases a <;> simp_all
  | cons x t ih =>
    cases t with
    | nil =>
      simp only [rex2]
      constructor
      · intro h; exact absurd h (by decide)
      · rintro ⟨a, w1, w2, m, h, -⟩
        cases a with
        | nil => simp_all
        | cons y ys => cases ys <;> simp_all
    | cons y r =>
      rw [show rex2 (x :: y :: r) =
            ((isWs x && isWs y && wsThenDigits r) || rex2 (y :: r)) from rfl]
      constructor
      · intro h
        rcases Bool.or_eq_true_iff.mp h with h1 | h2
        · exact ⟨[], x, y, r, rfl, by simp_all, by simp_all, by simp_all⟩
        · rcases ih.mp h2 with ⟨a, w1, w2, m, he, h1, h2', h3⟩
          exact ⟨x :: a, w1, w2, m, by simp [he], h1, h2', h3⟩
      · rintro ⟨a, w1, w2, m, he, h1, h2, h3⟩
        cases a with
        | nil =>
          apply Bool.or_eq_true_iff.mpr
          left
          obtain ⟨hx, hy, hr⟩ : x = w1 ∧ y = w2 ∧ r = m := by simpa using he
          subst hx; subst hy; subst hr
          simp_all
        | cons a0 a' =>
          apply Bool.or_eq_true_iff.mpr
          right
          obtain ⟨-, htail⟩ : x = a0 ∧ y :: r = a' ++ w1 :: w2 :: m := by
            simpa using he
          exact ih.mpr ⟨a', w1, w2, m, htail, h1, h2, h3⟩

lemma wsThenDigits_iff (m : List Char) :
    wsThenDigits m = true ↔
      ∃ u d, m = u ++ d ∧ u.all (fun x => isWs x) = true ∧ d ≠ [] ∧
        d.all (fun x => isDigit x) = true := by
  constructor
  · intro h
    unfold wsThenDigits at h
    simp only [Bool.and_eq_true, Bool.not_eq_true'] at h
    refine ⟨m.takeWhile (fun c => isWs c), m.dropWhile (fun c => isWs c),
      (List.takeWhile_append_dropWhile (fun c => isWs c) m).symm, ?_, ?_, ?_⟩
    · exact List.all_eq_true.mpr fun x hx => List.mem_takeWhile_imp hx
    · intro hnil
      rw [hnil] at h
      simp at h
    · exact h.2
  · rintro ⟨u, d, he, hu, hd, hall⟩
    subst he
    unfold wsThenDigits
    have hhead : d.dropWhile (fun c => isWs c) = d := by
      cases d with
      | nil => simp
      | cons d0 d' =>
        have hd0 : isDigit d0 = true := by simp_all
        have : isWs d0 = false := by
          rcases hws : isWs d0 with _ | _
          · rfl
          · rw [isWs_not_isDigit hws] at hd0; exact absurd hd0 (by decide)
        simp [List.dropWhile_cons, this]
    rw [dropWhile_append_all d hu, hhead]
    simp_all

lemma drop_takeWhile_length {p : Char → Bool} (l : List Char) :
    l.drop (l.takeWhile p).length = l.dropWhile p := by
  induction l with
  | nil => simp
  | cons x xs ih =>
    rcases h : p x with _ | _ <;>
      simp [List.takeWhile_cons, List.dropWhile_cons, h, ih]

lemma takeWhile_all {p : Char → Bool} (l : List Char) :
    (l.takeWhile p).all p = true :=
  List.all_eq_true.mpr fun x hx => List.mem_takeWhile_imp hx

/-- With a nonempty maximal trailing digit run, `^.*[^\s]\s[0-9]+$` matches
iff the two characters just before the run are a whitespace preceded by a
non-whitespace. -/
lemma rex1_forced (c : List Char)
    (hr : (c.reverse.takeWhile (fun x => isDigit x)) ≠ []) :
    (rex1 c = true ↔
      ∃ w n t2,
        c.reverse.drop ((c.reverse.takeWhile (fun x => isDigit x)).length) =
          w :: n :: t2 ∧ isWs w = true ∧ isWs n = false) := by
  constructor
  · intro h
    rcases (rex1_iff c).mp h with ⟨a, n, w, d, he, hn, hw, hd, hall⟩
    have hrc : c.reverse = d.reverse ++ w :: n :: a.reverse := by
      subst he; simp
    have hDall : d.reverse.all (fun x => isDigit x) = true := by
      simpa using hall
    have hwd : isDigit w = false := isWs_not_isDigit hw
    have htw : c.reverse.takeWhile (fun x => isDigit x) = d.reverse := by
      rw [hrc, takeWhile_append_all _ hDall, List.takeWhile_cons, hwd]
      simp
    refine ⟨w, n, a.reverse, ?_, hw, hn⟩
    rw [htw, hrc, List.drop_left]
  · rintro ⟨w, n, t2, hdrop, hw, hn⟩
    have hsplit : c.reverse =
        c.reverse.takeWhile (fun x => isDigit x) ++ w :: n :: t2 := by
      conv_lhs => rw [← List.takeWhile_append_dropWhile (fun x => isDigit x) c.reverse]
      rw [← drop_takeWhile_length, hdrop]
    apply (rex1_iff c).mpr
    refine ⟨t2.reverse, n, w,
      (c.reverse.takeWhile (fun x => isDigit x)).reverse, ?_, hn, hw, ?_, ?_⟩
    · have := congrArg List.reverse hsplit
      simpa using this
    · simpa using hr
    · simpa using takeWhile_all (p := fun x => isDigit x) c.reverse

/-- When `^.*[^\s]\s[0-9]+$` matches, `\s{2,}\d+$` cannot: the single
whitespace before the trailing digit run is preceded by a non-whitespace. -/
lemma rex2_false_of_rex1 (c : List Char) (h1 : rex1 c = true) :
    rex2 c = false := by
  rcases (rex1_iff c).mp h1 with ⟨a, n, w, d, he, hn, hw, hd, hall⟩
  rcases h2 : rex2 c with _ | _
  · rfl
  exfalso
  rcases (rex2_iff c).mp h2 with ⟨a2, w1, w2, m, he2, hw1, hw2, hm⟩
  rcases (wsThenDigits_iff m).mp hm with ⟨u, dd, hmu, hu, hdd, hddall⟩
  -- two reversals of the same string
  have hrc1 : c.reverse = d.reverse ++ w :: n :: a.reverse := by
    subst he; simp
  have hrc2 : c.reverse = dd.reverse ++ ((u.reverse ++ [w2, w1]) ++ a2.reverse) := by
    subst he2; subst hmu; simp
  -- both digit runs are the maximal one
  have hDall : d.reverse.all (fun x => isDigit x) = true := by simpa using hall
  have hDDall : dd.reverse.all (fun x => isDigit x) = true := by simpa using hddall
  have htw1 : c.reverse.takeWhile (fun x => isDigit x) = d.reverse := by
    rw [hrc1, takeWhile_append_all _ hDall, List.takeWhile_cons,
      isWs_not_isDigit hw]
    simp
  have htw2 : c.reverse.takeWhile (fun x => isDigit x) = dd.reverse := by
    rw [hrc2, takeWhile_append_all _ hDDall]
    rcases hu' : u.reverse with _ | ⟨u0, urest⟩
    · have h2d : isDigit w2 = false := isWs_not_isDigit hw2
      simp [List.takeWhile_cons, h2d]
    · have hu0 : isWs u0 = true := by
        have h0 : u0 ∈ u.reverse := by rw [hu']; exact List.mem_cons_self u0 urest
        exact List.all_eq_true.mp hu u0 (List.mem_reverse.mp h0)
      have h0d : isDigit u0 = false := isWs_not_isDigit hu0
      simp [List.takeWhile_cons, h0d]
  -- hence the tails after the run agree
  have htails : w :: n :: a.reverse = (u.reverse ++ [w2, w1]) ++ a2.reverse := by
    have e := hrc1.symm.trans hrc2
    rw [htw1.symm.trans htw2] at e
    exact List.append_cancel_left e
  -- but the second element of the right-hand side is whitespace
  have hxsws : ∀ x ∈ u.reverse ++ [w2, w1], isWs x = true := by
    intro x hx
    rcases List.mem_append.mp hx with hx | hx
    · exact List.all_eq_true.mp hu x (List.mem_reverse.mp hx)
    · rcases hx with _ | ⟨_, hx⟩
      · exact hw2
      · rcases hx with _ | ⟨_, hx⟩
        · exact hw1
        · cases hx
  rcases hxs : u.reverse ++ [w2, w1] with _ | ⟨x0, xs1⟩
  · exact absurd hxs (by simp)
  rcases hxs1 : xs1 with _ | ⟨x1, xs2⟩
  · exfalso
    have hlen := congrArg List.length hxs
    rw [hxs1] at hlen
    simp at hlen
  rw [hxs, hxs1] at htails
  simp only [List.cons_append] at htails
  have hn' : n = x1 := by
    have h := congrArg (fun l => List.head? (List.drop 1 l)) htails
    simpa using h
  have hnws : isWs n = true := by
    rw [hn']
    refine hxsws x1 ?_
    rw [hxs, hxs1]
    exact List.mem_cons_of_mem _ (List.mem_cons_self _ _)
  rw [hnws] at hn
  exact absurd hn (by decide)

lemma endsDigit_eq_takeWhile_ne (c : List Char) :
    endsDigit c = !(c.reverse.takeWhile (fun x => isDigit x)).isEmpty := by
  rcases hc : c.reverse with _ | ⟨d, t⟩
  · simp [endsDigit, hc]
  · rcases hd : isDigit d with _ | _ <;>
      simp [endsDigit, hc, List.takeWhile_cons, hd]

/-- The per-line digit-spacing test of `is_beautified`
(`^.*[^\s]\s[0-9]+$` and not `\s{2,}\d+$`) is exactly: the maximal trailing
digit run, if any, is preceded by one whitespace character preceded by a
non-whitespace character. -/
lemma beautTail_eq_claimTail (c : List Char) :
    (if endsDigit c then rex1 c && !rex2 c else true) = claimTailOK c := by
  rcases hr : c.reverse.takeWhile (fun x => isDigit x) with _ | ⟨x, xs⟩
  · have he : endsDigit c = false := by
      rw [endsDigit_eq_takeWhile_ne, hr]; rfl
    rw [he]
    simp only [claimTailOK, hr]
    simp
  · have he : endsDigit c = true := by
      rw [endsDigit_eq_takeWhile_ne, hr]; rfl
    rw [he]
    simp only [claimTailOK, hr, if_true]
    have hrne : c.reverse.takeWhile (fun x => isDigit x) ≠ [] := by
      rw [hr]; exact List.cons_ne_nil x xs
    rcases hd : c.reverse.drop ((x :: xs).length) with _ | ⟨w, t1⟩
    · have h1 : rex1 c = false := by
        rcases hrex : rex1 c with _ | _
        · rfl
        rcases (rex1_forced c hrne).mp hrex with ⟨w, n, t2, hdrop, -, -⟩
        rw [hr, hd] at hdrop
        exact absurd hdrop (by simp)
      simp [h1]
    rcases ht1 : t1 with _ | ⟨n, t2⟩
    · have h1 : rex1 c = false := by
        rcases hrex : rex1 c with _ | _
        · rfl
        rcases (rex1_forced c hrne).mp hrex with ⟨w', n', t2', hdrop, -, -⟩
        rw [hr, hd, ht1] at hdrop
        exact absurd hdrop (by simp)
      simp [h1]
    subst ht1
    by_cases hcond : isWs w = true ∧ isWs n = false
    · have h1 : rex1 c = true := by
        apply (rex1_forced c hrne).mpr
        exact ⟨w, n, t2, by rw [hr]; exact hd, hcond.1, hcond.2⟩
      have h2 : rex2 c = false := rex2_false_of_rex1 c h1
      simp [h1, h2, hcond.1, hcond.2]
    · have h1 : rex1 c = false := by
        rcases hrex : rex1 c with _ | _
        · rfl
        rcases (rex1_forced c hrne).mp hrex with ⟨w', n', t2', hdrop, hw', hn'⟩
        rw [hr, hd] at hdrop
        have hww : w = w' ∧ n = n' := by
          have h0 := congrArg List.head? hdrop
          have h1' := congrArg (fun l => List.head? (List.drop 1 l)) hdrop
          constructor
          · simpa using h0
          · simpa using h1'
        exact (hcond ⟨hww.1 ▸ hw', hww.2 ▸ hn'⟩).elim
      have : (isWs w && !isWs n) = false := by
        rcases hw : isWs w with _ | _
        · rfl
        rcases hn : isWs n with _ | _
        · exact absurd ⟨hw, hn⟩ hcond
        · simp [hw, hn]
      simp [h1, this]

lemma beautLineOK_eq_claimLineOK : beautLineOK = claimLineOK := by
  funext line
  unfold beautLineOK claimLineOK
  rcases h : (stripL line).isEmpty with _ | _
  · simp only [h, Bool.false_eq_true, if_false, Bool.false_or]
    rw [beautTail_eq_claimTail]
  · simp [h]

/-- C4 (amended): `is_beautified(T)` is true iff `T` has at least one line
and every non-blank line has indentation a multiple of 4 and either no
trailing digit run or a maximal trailing digit run preceded by exactly one
whitespace character which is itself preceded by a non-whitespace character;
in particular the empty string (no lines at all) yields false, not true. -/
theorem is_beautified_characterization (s : String) :
    is_beautified s = true ↔
      splitlinesL s.data ≠ [] ∧
        ∀ line ∈ splitlinesL s.data, claimLineOK line = true := by
  show isBeautifiedL s.data = true ↔ _
  unfold isBeautifiedL
  rcases h : (splitlinesL s.data).isEmpty with _ | _
  · rw [beautLineOK_eq_claimLineOK]
    simp only [h, Bool.false_eq_true, if_false, List.all_eq_true]
    have hne : splitlinesL s.data ≠ [] := by
      intro hnil
      rw [hnil] at h
      exact absurd h (by decide)
    exact ⟨fun hall => ⟨hne, hall⟩, fun hp => hp.2⟩
  · simp only [h, if_true]
    have hnil : splitlinesL s.data = [] := List.isEmpty_iff.mp h
    constructor
    · intro hfalse
      exact absurd hfalse (by decide)
    · rintro ⟨hne, -⟩
      exact absurd hnil hne

/-! ## Idempotence of the beautifier (claim C6) -/

lemma isDigit_not_isWs {c : Char} (h : isDigit c = true) : isWs c = false := by
  rcases hw : isWs c with _ | _
  · rfl
  · rw [isWs_not_isDigit hw] at h
    exact absurd h (by decide)

lemma dropWhile_head?_false (p : Char → Bool) (l : List Char) :
    ∀ h ∈ (l.dropWhile p).head?, p h = false := by
  induction l with
  | nil => intro h hh; cases hh
  | cons x xs ih =>
    intro h hh
    rcases hp : p x with _ | _
    · rw [List.dropWhile_cons, hp] at hh
      simp only [Bool.false_eq_true, if_false, List.head?_cons,
        Option.mem_def, Option.some.injEq] at hh
      rw [← hh]; exact hp
    · rw [List.dropWhile_cons, hp] at hh
      simp only [if_true] at hh
      exact ih h hh

lemma dropWhile_eq_self_of_head (p : Char → Bool) (l : List Char)
    (h : ∀ x ∈ l.head?, p x = false) : l.dropWhile p = l := by
  cases l with
  | nil => rfl
  | cons x xs =>
    have hx : p x = false := h x rfl
    simp [List.dropWhile_cons, hx]

lemma lstripL_head?_false (l : List Char) :
    ∀ h ∈ (lstripL l).head?, isWs h = false :=
  dropWhile_head?_false (fun c => isWs c) l

lemma rstripL_getLast?_false (l : List Char) :
    ∀ h ∈ (rstripL l).getLast?, isWs h = false := by
  intro h hh
  rw [rstripL, List.getLast?_reverse] at hh
  exact dropWhile_head?_false (fun c => isWs c) l.reverse h hh

lemma lstripL_getLast? (l : List Char) (h : lstripL l ≠ []) :
    (lstripL l).getLast? = l.getLast? := by
  rw [lstripL] at h
  rw [lstripL]
  conv_rhs =>
    rw [← List.takeWhile_append_dropWhile (fun c => isWs c) l]
  rw [List.getLast?_append_of_ne_nil _ h]

lemma rstripL_head? (l : List Char) (h : rstripL l ≠ []) :
    (rstripL l).head? = l.head? := by
  have hrev : l.reverse.dropWhile (fun c => isWs c) ≠ [] := by
    intro hz
    rw [rstripL, hz] at h
    exact h rfl
  rw [rstripL, List.head?_reverse, ← List.getLast?_reverse l]
  conv_rhs =>
    rw [← List.takeWhile_append_dropWhile (fun c => isWs c) l.reverse]
  rw [List.getLast?_append_of_ne_nil _ hrev]

lemma rstripL_idem (l : List Char) : rstripL (rstripL l) = rstripL l := by
  rw [rstripL, rstripL, List.reverse_reverse, List.dropWhile_idempotent]

/-- A `GoodC` content is nonempty and begins and ends with a non-whitespace
character; these are the contents the beautifier emits. -/
def GoodC (c : List Char) : Prop :=
  c ≠ [] ∧ (∀ h ∈ c.head?, isWs h = false) ∧ (∀ h ∈ c.getLast?, isWs h = false)

lemma stripL_eq_self_of_goodc (c : List Char) (hg : GoodC c) : stripL c = c := by
  obtain ⟨-, hh, hl⟩ := hg
  have hr : rstripL c = c := by
    rw [rstripL, dropWhile_eq_self_of_head _ _ (by
      intro x hx
      rw [List.head?_reverse] at hx
      exact hl x hx), List.reverse_reverse]
  rw [stripL, hr, lstripL, dropWhile_eq_self_of_head _ _ hh]

lemma stripL_goodc (l : List Char) (h : stripL l ≠ []) : GoodC (stripL l) := by
  refine ⟨h, ?_, ?_⟩
  · exact lstripL_head?_false (rstripL l)
  · intro x hx
    rw [stripL] at h hx
    rw [lstripL_getLast? _ h] at hx
    exact rstripL_getLast?_false l x hx

lemma takeWhile_eq_nil_of_head (p : Char → Bool) (l : List Char)
    (h : ∀ x ∈ l.head?, p x = false) : l.takeWhile p = [] := by
  cases l with
  | nil => rfl
  | cons x xs =>
    have hx : p x = false := h x rfl
    simp [List.takeWhile_cons, hx]

/-- Computation of the `re.split(r'\s+(\d+)$', ...)` match on a string of the
shape `p2 ++ " " ++ d` with `d` a digit run and `p2` not ending in
whitespace. -/
lemma splitWsDigits_build (p2 d : List Char) (hd : d ≠ [])
    (hdall : d.all (fun x => isDigit x) = true)
    (hp2 : ∀ h ∈ p2.getLast?, isWs h = false) :
    splitWsDigits (p2 ++ ' ' :: d) = some (p2, d) := by
  have hrev : (p2 ++ ' ' :: d).reverse = d.reverse ++ ' ' :: p2.reverse := by
    simp
  have hdrall : d.reverse.all (fun x => isDigit x) = true := by
    rw [List.all_reverse]; exact hdall
  have hsp : isDigit ' ' = false := by decide
  have htw : (p2 ++ ' ' :: d).reverse.takeWhile (fun x => isDigit x) = d.reverse := by
    rw [hrev, takeWhile_append_all _ hdrall, List.takeWhile_cons]
    simp [hsp]
  have hdw : (p2 ++ ' ' :: d).reverse.dropWhile (fun x => isDigit x) = ' ' :: p2.reverse := by
    rw [hrev, dropWhile_append_all _ hdrall, List.dropWhile_cons]
    simp [hsp]
  have hp2head : ∀ x ∈ p2.reverse.head?, isWs x = false := by
    intro x hx
    rw [List.head?_reverse] at hx
    exact hp2 x hx
  have hwsp : isWs ' ' = true := by decide
  have htw2 : (' ' :: p2.reverse).takeWhile (fun x => isWs x) = [' '] := by
    rw [List.takeWhile_cons]
    simp [hwsp, takeWhile_eq_nil_of_head _ _ hp2head]
  have hdw2 : (' ' :: p2.reverse).dropWhile (fun x => isWs x) = p2.reverse := by
    rw [List.dropWhile_cons]
    simp [hwsp, dropWhile_eq_self_of_head _ _ hp2head]
  simp only [splitWsDigits, drop_takeWhile_length, htw, hdw, htw2, hdw2]
  have hdne : d.reverse ≠ [] := by simpa using hd
  simp [hdne]
  exact ⟨hwsp, by rw [hdw2, List.reverse_reverse]⟩

lemma splitWsDigits_eq_some {c pre d : List Char}
    (h : splitWsDigits c = some (pre, d)) :
    d = (c.reverse.takeWhile (fun x => isDigit x)).reverse ∧
    c.reverse.takeWhile (fun x => isDigit x) ≠ [] ∧
    pre = ((c.reverse.dropWhile (fun x => isDigit x)).dropWhile (fun x => isWs x)).reverse ∧
    (c.reverse.dropWhile (fun x => isDigit x)).takeWhile (fun x => isWs x) ≠ [] := by
  simp only [splitWsDigits, drop_takeWhile_length] at h
  by_cases h1 : (c.reverse.takeWhile (fun x => isDigit x)).isEmpty
  · rw [if_pos h1] at h
    exact absurd h (by simp)
  rw [if_neg h1] at h
  by_cases h2 : ((c.reverse.dropWhile (fun x => isDigit x)).takeWhile
      (fun x => isWs x)).isEmpty
  · rw [if_pos h2] at h
    exact absurd h (by simp)
  rw [if_neg h2] at h
  simp only [Option.some.injEq, Prod.mk.injEq] at h
  refine ⟨h.2.symm, ?_, h.1.symm, ?_⟩
  · intro hz; rw [hz] at h1; exact h1 rfl
  · intro hz; rw [hz] at h2; exact h2 rfl


lemma goodc_rebuilt (p2 d : List Char) (hp2ne : p2 ≠ [])
    (hp2h : ∀ h ∈ p2.head?, isWs h = false)
    (hd : d ≠ []) (hdall : d.all (fun x => isDigit x) = true) :
    GoodC (p2 ++ ' ' :: d) := by
  refine ⟨by simp, ?_, ?_⟩
  · intro h hh
    rw [List.head?_append_of_ne_nil p2 hp2ne] at hh
    exact hp2h h hh
  · intro h hh
    rw [List.getLast?_append_of_ne_nil p2 (by simp),
      show (' ' :: d) = [' '] ++ d from rfl,
      List.getLast?_append_of_ne_nil [' '] hd] at hh
    exact isDigit_not_isWs
      (List.all_eq_true.mp hdall h (List.mem_of_mem_getLast? hh))

lemma resplitCode_fixed (p2 d : List Char)
    (hp2ne : p2 ≠ []) (hp2h : ∀ h ∈ p2.head?, isWs h = false)
    (hp2last : ∀ h ∈ p2.getLast?, isWs h = false)
    (hp2fix : rstripL p2 = p2)
    (hd : d ≠ []) (hdall : d.all (fun x => isDigit x) = true) :
    resplitCode (p2 ++ ' ' :: d) = p2 ++ ' ' :: d := by
  have hgr : GoodC (p2 ++ ' ' :: d) := goodc_rebuilt p2 d hp2ne hp2h hd hdall
  rw [resplitCode, stripL_eq_self_of_goodc _ hgr,
    splitWsDigits_build p2 d hd hdall hp2last]
  show rstripL p2 ++ ' ' :: d = p2 ++ ' ' :: d
  rw [hp2fix]

/-- The content `beautify_outline` rebuilds for a non-blank line starts and
ends with a non-whitespace character, and re-splitting it is a no-op: the
"one separating space" form is a fixed point of the re-split. -/
lemma resplitCode_goodc {c : List Char} (hg : GoodC c) :
    GoodC (resplitCode c) ∧ resplitCode (resplitCode c) = resplitCode c := by
  have hs : stripL c = c := stripL_eq_self_of_goodc c hg
  have hres : resplitCode c =
      match splitWsDigits c with
      | some (pre, d) => rstripL pre ++ ' ' :: d
      | none => c := by
    rw [resplitCode, hs]
  cases hsp : splitWsDigits c with
  | none =>
    rw [hsp] at hres
    have hcc : resplitCode c = c := hres
    constructor
    · rw [hcc]; exact hg
    · rw [hcc, hcc]
  | some pd =>
    obtain ⟨pre, d⟩ := pd
    rw [hsp] at hres
    replace hres : resplitCode c = rstripL pre ++ ' ' :: d := hres
    obtain ⟨hdv, hRne, hprev, hWne⟩ := splitWsDigits_eq_some hsp
    have hdall : d.all (fun x => isDigit x) = true := by
      rw [hdv, List.all_reverse]
      exact takeWhile_all c.reverse
    have hdne : d ≠ [] := by
      rw [hdv]
      simpa using hRne
    -- decomposition c = pre ++ (W.reverse ++ d)
    have hcdec : c = pre ++
        (((c.reverse.dropWhile (fun x => isDigit x)).takeWhile (fun x => isWs x)).reverse
          ++ d) := by
      have hcrev : c.reverse =
          c.reverse.takeWhile (fun x => isDigit x) ++
            ((c.reverse.dropWhile (fun x => isDigit x)).takeWhile (fun x => isWs x) ++
              (c.reverse.dropWhile (fun x => isDigit x)).dropWhile (fun x => isWs x)) := by
        rw [List.takeWhile_append_dropWhile, List.takeWhile_append_dropWhile]
      have h2 := congrArg List.reverse hcrev
      rw [List.reverse_reverse] at h2
      conv_lhs => rw [h2]
      rw [hdv, hprev]
      simp only [List.reverse_append, List.append_assoc]
    have hWall : (((c.reverse.dropWhile (fun x => isDigit x)).takeWhile
        (fun x => isWs x)).reverse).all (fun x => isWs x) = true := by
      rw [List.all_reverse]
      exact takeWhile_all _
    have hWrevne : (((c.reverse.dropWhile (fun x => isDigit x)).takeWhile
        (fun x => isWs x)).reverse) ≠ [] := by
      simpa using hWne
    have hchead := hg.2.1
    -- pre is nonempty: otherwise c would begin with whitespace
    have hprene : pre ≠ [] := by
      intro hz
      rw [hz, List.nil_append] at hcdec
      rcases hWrv : ((c.reverse.dropWhile (fun x => isDigit x)).takeWhile
          (fun x => isWs x)).reverse with _ | ⟨w0, wrest⟩
      · exact hWrevne hWrv
      rw [hWrv] at hcdec
      have hhc : c.head? = some w0 := by rw [hcdec]; rfl
      have hw0 : isWs w0 = true := by
        have hmem : w0 ∈ (w0 :: wrest) := List.mem_cons_self _ _
        rw [← hWrv] at hmem
        exact List.all_eq_true.mp hWall w0 hmem
      have hcontra := hchead w0 hhc
      rw [hw0] at hcontra
      exact absurd hcontra (by decide)
    have hpre_head : ∀ h ∈ pre.head?, isWs h = false := by
      intro h hh
      apply hchead h
      rw [hcdec, List.head?_append_of_ne_nil pre hprene]
      exact hh
    have hrpne : rstripL pre ≠ [] := by
      intro hz
      have hall : ∀ x ∈ pre.reverse, isWs x = true := by
        apply List.dropWhile_eq_nil_iff.mp
        have := congrArg List.reverse hz
        rw [rstripL, List.reverse_reverse] at this
        simpa using this
      rcases hpv : pre with _ | ⟨p0, prest⟩
      · exact hprene hpv
      have hp0 : isWs p0 = true := by
        apply hall
        rw [List.mem_reverse, hpv]
        exact List.mem_cons_self _ _
      have := hpre_head p0 (by rw [hpv]; rfl)
      rw [hp0] at this
      exact absurd this (by decide)
    have hrp_head : ∀ h ∈ (rstripL pre).head?, isWs h = false := by
      intro h hh
      rw [rstripL_head? pre hrpne] at hh
      exact hpre_head h hh
    have hrp_last : ∀ h ∈ (rstripL pre).getLast?, isWs h = false :=
      rstripL_getLast?_false pre
    constructor
    · rw [hres]
      exact goodc_rebuilt (rstripL pre) d hrpne hrp_head hdne hdall
    · rw [hres]
      exact resplitCode_fixed (rstripL pre) d hrpne hrp_head hrp_last
        (rstripL_idem pre) hdne hdall

lemma slGo_nil (acc : List Char) : splitLinesChars.go acc [] = [acc.reverse] := rfl

lemma slGo_cons_not_lb (acc : List Char) (c : Char) (rest : List Char)
    (h : isLB c = false) :
    splitLinesChars.go acc (c :: rest) = splitLinesChars.go (c :: acc) rest := by
  rw [splitLinesChars.go.eq_def]
  split
  · rename_i heq
    exact absurd heq (by simp)
  · rename_i c2 rest2 heq
    injection heq with h1 h2
    subst h1
    subst h2
    rw [if_neg (by intro hz; rw [hz] at h; exact absurd h (by decide)),
      if_neg (by rw [h]; exact Bool.false_ne_true)]

lemma slGo_cons_newline (acc : List Char) (J : List Char) :
    splitLinesChars.go acc ('\n' :: J) =
      acc.reverse :: (if J.isEmpty then [] else splitLinesChars.go [] J) := by
  rw [splitLinesChars.go.eq_def]
  split
  · rename_i heq
    exact absurd heq (by simp)
  · rename_i c2 rest2 heq
    injection heq with h1 h2
    subst h1
    subst h2
    rw [if_neg (by decide), if_pos (by decide)]

lemma slGo_nolb_total (l : List Char) :
    ∀ acc, l.all (fun c => !isLB c) = true →
      splitLinesChars.go acc l = [acc.reverse ++ l] := by
  induction l with
  | nil => intro acc h; rw [slGo_nil]; simp
  | cons c rest ih =>
    intro acc h
    simp only [List.all_cons, Bool.and_eq_true, Bool.not_eq_true'] at h
    rw [slGo_cons_not_lb acc c rest h.1, ih (c :: acc) h.2]
    simp

lemma slGo_append_line (x : List Char) (J : List Char) :
    ∀ acc, x.all (fun c => !isLB c) = true →
      splitLinesChars.go acc (x ++ '\n' :: J) =
        (acc.reverse ++ x) :: (if J.isEmpty then [] else splitLinesChars.go [] J) := by
  induction x with
  | nil =>
    intro acc h
    show splitLinesChars.go acc ('\n' :: J) = _
    rw [slGo_cons_newline]
    simp
  | cons c rest ih =>
    intro acc h
    simp only [List.all_cons, Bool.and_eq_true, Bool.not_eq_true'] at h
    show splitLinesChars.go acc (c :: (rest ++ '\n' :: J)) = _
    rw [slGo_cons_not_lb acc c _ h.1, ih (c :: acc) h.2]
    simp

lemma joinN_cons_cons (x y : List Char) (rest : List (List Char)) :
    joinN (x :: y :: rest) = x ++ '\n' :: joinN (y :: rest) := rfl

lemma joinN_ne_nil (ls : List (List Char)) (hne : ls ≠ [])
    (hlast : ∀ x ∈ ls.getLast?, x ≠ []) : joinN ls ≠ [] := by
  cases ls with
  | nil => exact absurd rfl hne
  | cons a rest =>
    cases rest with
    | nil =>
      have := hlast a rfl
      simpa [joinN] using this
    | cons b rest2 =>
      rw [joinN_cons_cons]
      simp

/-- Splitting the newline-join of a list of boundary-free lines whose last
line is nonempty recovers the list. -/
lemma splitlines_joinN (ls : List (List Char))
    (hLB : ∀ l ∈ ls, l.all (fun c => !isLB c) = true)
    (hne : ls ≠ [])
    (hlast : ∀ x ∈ ls.getLast?, x ≠ []) :
    splitlinesL (joinN ls) = ls := by
  induction ls with
  | nil => exact absurd rfl hne
  | cons x rest ih =>
    cases rest with
    | nil =>
      have hx : x ≠ [] := hlast x rfl
      have hxlb : x.all (fun c => !isLB c) = true := hLB x (List.mem_cons_self _ _)
      show splitlinesL x = [x]
      rw [splitlinesL, if_neg (by simpa using hx)]
      rw [splitLinesChars, slGo_nolb_total x [] hxlb]
      simp
    | cons y rest2 =>
      rw [joinN_cons_cons]
      have hxlb : x.all (fun c => !isLB c) = true := hLB x (List.mem_cons_self _ _)
      have hJne : joinN (y :: rest2) ≠ [] := by
        apply joinN_ne_nil _ (by simp)
        intro z hz
        apply hlast z
        rw [List.getLast?_cons_cons]
        exact hz
      rw [splitlinesL, if_neg (by simp)]
      rw [splitLinesChars, slGo_append_line x (joinN (y :: rest2)) [] hxlb]
      rw [if_neg (by simpa using hJne)]
      have hrec : splitLinesChars.go [] (joinN (y :: rest2)) = y :: rest2 := by
        have hr := ih (fun l hl => hLB l (List.mem_cons_of_mem _ hl)) (by simp)
          (fun z hz => hlast z (by rw [List.getLast?_cons_cons]; exact hz))
        rw [splitlinesL, if_neg (by simpa using hJne), splitLinesChars] at hr
        exact hr
      rw [hrec]
      simp

lemma spaces_all_ws (n : Nat) : (spaces n).all (fun c => isWs c) = true := by
  rw [List.all_eq_true]
  intro x hx
  rw [spaces, List.mem_replicate] at hx
  rw [hx.2]
  decide

lemma stripL_spaces_append (n : Nat) (c : List Char) (hg : GoodC c) :
    stripL (spaces n ++ c) = c := by
  obtain ⟨hne, hh, hl⟩ := hg
  have hr : rstripL (spaces n ++ c) = spaces n ++ c := by
    rw [rstripL, dropWhile_eq_self_of_head _ _ ?_, List.reverse_reverse]
    intro x hx
    rw [List.head?_reverse] at hx
    rw [List.getLast?_append_of_ne_nil _ hne] at hx
    exact hl x hx
  rw [stripL, hr, lstripL, dropWhile_append_all c (spaces_all_ws n),
    dropWhile_eq_self_of_head _ _ hh]

lemma leadingWs_spaces_append (n : Nat) (c : List Char) (hg : GoodC c) :
    leadingWs (spaces n ++ c) = n := by
  rw [leadingWs, takeWhile_append_all c (spaces_all_ws n),
    takeWhile_eq_nil_of_head _ _ hg.2.1]
  simp [spaces]

lemma emitLines_ne_nil (last : Int) (p : Nat × List Char)
    (is : List (Nat × List Char)) : emitLines last (p :: is) ≠ [] := by
  obtain ⟨k, c⟩ := p
  rw [emitLines]
  rcases h : (if k = 0 ∧ last ≠ -1 then [([] : List Char)] else []) with _ | _ <;> simp

/-- The blank lines and re-indented contents emitted by `beautify_outline`
map back to exactly the `(level, content)` data they were emitted from. -/
lemma beautInfos_emitLines (is : List (Nat × List Char)) :
    ∀ last : Int,
      (∀ p ∈ is, GoodC p.2 ∧ resplitCode p.2 = p.2) →
      beautInfos (emitLines last is) = is := by
  induction is with
  | nil => intro last h; rfl
  | cons p rest ih =>
    obtain ⟨k, c⟩ := p
    intro last hall
    have hc := hall (k, c) (List.mem_cons_self _ _)
    have hstrip : stripL (spaces (4 * k) ++ c) = c := stripL_spaces_append _ _ hc.1
    have hlead : leadingWs (spaces (4 * k) ++ c) = 4 * k :=
      leadingWs_spaces_append _ _ hc.1
    have hcne : ¬((stripL (spaces (4 * k) ++ c)).isEmpty = true) := by
      rw [hstrip]
      simpa using hc.1.1
    rw [emitLines, beautInfos, List.filterMap_append]
    have hblank : List.filterMap
        (fun line => if (stripL line).isEmpty = true then none
          else some (leadingWs line / 4, resplitCode (stripL line)))
        (if k = 0 ∧ last ≠ -1 then [([] : List Char)] else []) = [] := by
      by_cases hp : k = 0 ∧ last ≠ -1
      · rw [if_pos hp]
        rfl
      · rw [if_neg hp]
        rfl
    rw [hblank, List.nil_append, List.filterMap_cons]
    rw [if_neg hcne, hstrip, hlead]
    rw [Nat.mul_div_cancel_left k (by norm_num : 0 < 4)]
    rw [hc.2]
    show (k, (k, c).2) :: beautInfos (emitLines (k : Int) rest) = (k, c) :: rest
    rw [ih (k : Int) (fun q hq => hall q (List.mem_cons_of_mem _ hq))]

lemma mem_beautInfos {lines : List (List Char)} {p : Nat × List Char}
    (hp : p ∈ beautInfos lines) :
    ∃ line ∈ lines, stripL line ≠ [] ∧
      p = (leadingWs line / 4, resplitCode (stripL line)) := by
  rw [beautInfos, List.mem_filterMap] at hp
  obtain ⟨line, hline, hf⟩ := hp
  by_cases hz : (stripL line).isEmpty = true
  · rw [if_pos hz] at hf
    exact absurd hf (by simp)
  · rw [if_neg hz] at hf
    refine ⟨line, hline, by simpa using hz, ?_⟩
    have := Option.some.inj hf
    exact this.symm

lemma beautInfos_goodc (lines : List (List Char)) :
    ∀ p ∈ beautInfos lines, GoodC p.2 ∧ resplitCode p.2 = p.2 := by
  intro p hp
  obtain ⟨line, -, hne, hpv⟩ := mem_beautInfos hp
  have hg : GoodC (stripL line) := stripL_goodc line hne
  have hr := resplitCode_goodc hg
  rw [hpv]
  exact hr

lemma stripL_all {p : Char → Bool} {l : List Char} (h : l.all p = true) :
    (stripL l).all p = true := by
  rw [List.all_eq_true] at h ⊢
  intro x hx
  apply h
  rw [stripL, lstripL] at hx
  have hx2 : x ∈ rstripL l := (List.dropWhile_sublist (fun c => isWs c)).subset hx
  rw [rstripL, List.mem_reverse] at hx2
  have hx3 : x ∈ l.reverse := (List.dropWhile_sublist (fun c => isWs c)).subset hx2
  exact List.mem_reverse.mp hx3

lemma resplitCode_all {p : Char → Bool} {l : List Char} (h : l.all p = true)
    (hsp : p ' ' = true) : (resplitCode l).all p = true := by
  have hs : (stripL l).all p = true := stripL_all h
  rw [resplitCode]
  cases hsp2 : splitWsDigits (stripL l) with
  | none => exact h
  | some pd =>
    obtain ⟨pre, d⟩ := pd
    obtain ⟨hdv, -, hprev, -⟩ := splitWsDigits_eq_some hsp2
    rw [List.all_eq_true]
    intro x hx
    rw [List.mem_append] at hx
    rcases hx with hx | hx
    · -- x in rstripL pre, pre a reversed sub-run of stripL l
      have h1 : x ∈ pre := by
        rw [rstripL, List.mem_reverse] at hx
        have := (List.dropWhile_sublist (fun c => isWs c)).subset hx
        exact List.mem_reverse.mp this
      rw [hprev, List.mem_reverse] at h1
      have h2 := (List.dropWhile_sublist (fun x => isWs x)).subset h1
      have h3 := (List.dropWhile_sublist (fun x => isDigit x)).subset h2
      rw [List.mem_reverse] at h3
      exact List.all_eq_true.mp hs x h3
    · rcases hx with _ | ⟨_, hx⟩
      · exact hsp
      · rw [hdv] at hx
        have h1 : x ∈ (stripL l).reverse.takeWhile (fun x => isDigit x) :=
          List.mem_reverse.mp hx
        have h2 := (List.takeWhile_sublist (fun x => isDigit x)).subset h1
        exact List.all_eq_true.mp hs x (List.mem_reverse.mp h2)


lemma slGo_cons_crlf (acc r : List Char) :
    splitLinesChars.go acc ('\r' :: '\n' :: r) =
      acc.reverse :: (if r.isEmpty then [] else splitLinesChars.go [] r) := by
  rw [splitLinesChars.go.eq_def]
  split
  · rename_i heq
    exact absurd heq (by simp)
  · rename_i c2 rest2 heq
    injection heq with h1 h2
    subst h1
    subst h2
    rw [if_pos rfl]
    rfl

lemma slGo_cons_cr (acc b : List Char)
    (hb : ∀ r : List Char, b = '\n' :: r → False) :
    splitLinesChars.go acc ('\r' :: b) =
      acc.reverse :: (if b.isEmpty then [] else splitLinesChars.go [] b) := by
  rw [splitLinesChars.go.eq_def]
  split
  · rename_i heq
    exact absurd heq (by simp)
  · rename_i c2 rest2 heq
    injection heq with h1 h2
    subst h1
    subst h2
    rw [if_pos rfl]
    split
    · rename_i x1 rest1 r1
      exact (hb r1 rfl).elim
    · rfl

lemma slGo_cons_lb (acc : List Char) (c : Char) (rest : List Char)
    (hcr : ¬(c = '\r')) (hlb : isLB c = true) :
    splitLinesChars.go acc (c :: rest) =
      acc.reverse :: (if rest.isEmpty then [] else splitLinesChars.go [] rest) := by
  rw [splitLinesChars.go.eq_def]
  split
  · rename_i heq
    exact absurd heq (by simp)
  · rename_i c2 rest2 heq
    injection heq with h1 h2
    subst h1
    subst h2
    rw [if_neg hcr, if_pos hlb]

lemma boundary_mem_all {acc : List Char} {rest : List Char}
    {P : List Char → Prop}
    (hacc : P acc.reverse)
    (hrec : ∀ x ∈ (if rest.isEmpty then ([] : List (List Char))
      else splitLinesChars.go [] rest), P x) :
    ∀ x ∈ acc.reverse :: (if rest.isEmpty then ([] : List (List Char))
      else splitLinesChars.go [] rest), P x := by
  intro x hx
  rcases hx with _ | ⟨-, hx⟩
  · exact hacc
  · exact hrec x hx

lemma slGo_all_not_lb (acc m : List Char) :
    acc.all (fun c => !isLB c) = true →
    ∀ x ∈ splitLinesChars.go acc m, x.all (fun c => !isLB c) = true := by
  induction acc, m using splitLinesChars.go.induct with
  | case1 acc =>
    intro hacc x hx
    rw [slGo_nil] at hx
    rcases hx with _ | ⟨-, hx⟩
    · simpa using hacc
    · cases hx
  | case2 acc r ih =>
    intro hacc
    rw [slGo_cons_crlf]
    refine boundary_mem_all (by simpa using hacc) ?_
    intro x hx
    by_cases hre : r.isEmpty = true
    · rw [if_pos hre] at hx
      cases hx
    · rw [if_neg hre] at hx
      exact ih rfl x hx
  | case3 acc b hb ih =>
    intro hacc
    rw [slGo_cons_cr acc b (by intro r hz; exact hb r hz)]
    refine boundary_mem_all (by simpa using hacc) ?_
    intro x hx
    by_cases hre : b.isEmpty = true
    · rw [if_pos hre] at hx
      cases hx
    · rw [if_neg hre] at hx
      exact ih rfl x hx
  | case4 acc c rest hcr hlb ih =>
    intro hacc
    rw [slGo_cons_lb acc c rest hcr hlb]
    refine boundary_mem_all (by simpa using hacc) ?_
    intro x hx
    by_cases hre : rest.isEmpty = true
    · rw [if_pos hre] at hx
      cases hx
    · rw [if_neg hre] at hx
      exact ih rfl x hx
  | case5 acc c rest hcr hlb ih =>
    intro hacc
    rw [slGo_cons_not_lb acc c rest (by simpa using hlb)]
    apply ih
    simp only [List.all_cons, Bool.and_eq_true, Bool.not_eq_true']
    exact ⟨by simpa using hlb, hacc⟩

lemma splitlinesL_all_not_lb (l : List Char) :
    ∀ x ∈ splitlinesL l, x.all (fun c => !isLB c) = true := by
  rw [splitlinesL]
  by_cases h : l.isEmpty = true
  · rw [if_pos h]
    intro x hx
    cases hx
  · rw [if_neg h, splitLinesChars]
    exact slGo_all_not_lb [] l rfl

lemma emitLines_all_not_lb (is : List (Nat × List Char)) :
    ∀ last : Int,
      (∀ p ∈ is, p.2.all (fun c => !isLB c) = true) →
      ∀ x ∈ emitLines last is, x.all (fun c => !isLB c) = true := by
  induction is with
  | nil => intro last h x hx; cases hx
  | cons p rest ih =>
    obtain ⟨k, c⟩ := p
    intro last hall x hx
    rw [emitLines, List.mem_append] at hx
    rcases hx with hx | hx
    · by_cases hp : k = 0 ∧ last ≠ -1
      · rw [if_pos hp] at hx
        rcases hx with _ | ⟨-, hx⟩
        · rfl
        · cases hx
      · rw [if_neg hp] at hx
        cases hx
    · rcases hx with _ | ⟨-, hx⟩
      · rw [List.all_append]
        refine Bool.and_eq_true_iff.mpr ⟨?_, hall (k, c) (List.mem_cons_self _ _)⟩
        rw [List.all_eq_true]
        intro z hz
        rw [spaces, List.mem_replicate] at hz
        rw [hz.2]
        rfl
      · exact ih (k : Int) (fun q hq => hall q (List.mem_cons_of_mem _ hq)) x hx

lemma emitLines_getLast_ne (is : List (Nat × List Char)) :
    ∀ last : Int, (∀ p ∈ is, p.2 ≠ []) →
      ∀ x ∈ (emitLines last is).getLast?, x ≠ [] := by
  induction is with
  | nil => intro last h x hx; cases hx
  | cons p rest ih =>
    obtain ⟨k, c⟩ := p
    intro last hall x hx
    rw [emitLines] at hx
    cases rest with
    | nil =>
      have hc : c ≠ [] := hall (k, c) (List.mem_cons_self _ _)
      rw [show emitLines (k : Int) [] = [] from rfl] at hx
      by_cases hp : k = 0 ∧ last ≠ -1
      · rw [if_pos hp] at hx
        rw [show (([([] : List Char)] ++ [spaces (4 * k) ++ c]).getLast?) =
          some (spaces (4 * k) ++ c) from rfl] at hx
        have hx2 : spaces (4 * k) ++ c = x := Option.some.inj hx
        rw [← hx2]
        simp [hc]
      · rw [if_neg hp] at hx
        rw [show ((([] : List (List Char)) ++ [spaces (4 * k) ++ c]).getLast?) =
          some (spaces (4 * k) ++ c) from rfl] at hx
        have hx2 : spaces (4 * k) ++ c = x := Option.some.inj hx
        rw [← hx2]
        simp [hc]
    | cons q rest2 =>
      have hrec := ih (k : Int) (fun z hz => hall z (List.mem_cons_of_mem _ hz))
      have hne : emitLines (k : Int) (q :: rest2) ≠ [] := emitLines_ne_nil _ _ _
      rw [List.getLast?_append_of_ne_nil _ (by simp),
        show ((spaces (4 * k) ++ c) :: emitLines (k : Int) (q :: rest2)) =
          [spaces (4 * k) ++ c] ++ emitLines (k : Int) (q :: rest2) from rfl,
        List.getLast?_append_of_ne_nil _ hne] at hx
      exact hrec x hx

lemma beautifyBody_idem (l : List Char) :
    beautifyBody (beautifyBody l) = beautifyBody l := by
  have hB : beautifyBody l = joinN (emitLines (-1) (beautInfos (splitlinesL l))) := rfl
  cases his : beautInfos (splitlinesL l) with
  | nil =>
    have h0 : beautifyBody l = [] := by rw [hB, his]; rfl
    rw [h0]
    rfl
  | cons p rest =>
    have hgood := beautInfos_goodc (splitlinesL l)
    have hlb : ∀ q ∈ beautInfos (splitlinesL l),
        q.2.all (fun c => !isLB c) = true := by
      intro q hq
      obtain ⟨line, hline, hne, hqv⟩ := mem_beautInfos hq
      have hl1 := splitlinesL_all_not_lb l line hline
      have hres := resplitCode_all (stripL_all hl1) (by rfl)
      rw [hqv]
      exact hres
    have hEne : emitLines (-1 : Int) (beautInfos (splitlinesL l)) ≠ [] := by
      rw [his]
      exact emitLines_ne_nil _ _ _
    have hElb := emitLines_all_not_lb (beautInfos (splitlinesL l)) (-1) hlb
    have hElast := emitLines_getLast_ne (beautInfos (splitlinesL l)) (-1)
      (fun q hq => (hgood q hq).1.1)
    have hsplit : splitlinesL (beautifyBody l) =
        emitLines (-1 : Int) (beautInfos (splitlinesL l)) := by
      rw [hB]
      exact splitlines_joinN _ hElb hEne hElast
    have h2 : beautifyBody (beautifyBody l) =
        joinN (emitLines (-1) (beautInfos (splitlinesL (beautifyBody l)))) := rfl
    rw [h2, hsplit, beautInfos_emitLines _ (-1) hgood, ← hB]

lemma beautifyL_idem (l : List Char) : beautifyL (beautifyL l) = beautifyL l := by
  by_cases h : isBeautifiedL l = true
  · have h1 : beautifyL l = l := by rw [beautifyL, if_pos h]
    rw [h1, h1]
  · have h1 : beautifyL l = beautifyBody l := by rw [beautifyL, if_neg h]
    rw [h1]
    by_cases h2 : isBeautifiedL (beautifyBody l) = true
    · rw [beautifyL, if_pos h2]
    · rw [beautifyL, if_neg h2]
      exact beautifyBody_idem l

/-- C6: `beautify_outline` is idempotent — beautifying twice equals
beautifying once for every text — and whenever `is_beautified` accepts a
text `beautify_outline` returns it unchanged byte-for-byte (the explicit
short-circuit at the top of the function). -/
theorem beautify_outline_idempotent (s : String) :
    beautify_outline (beautify_outline s) = beautify_outline s ∧
      (is_beautified s = true → beautify_outline s = s) := by
  constructor
  · show (⟨beautifyL (beautify_outline s).data⟩ : String) = ⟨beautifyL s.data⟩
    have hdata : (beautify_outline s).data = beautifyL s.data := rfl
    rw [hdata, beautifyL_idem]
  · intro h
    show (⟨beautifyL s.data⟩ : String) = s
    have h' : isBeautifiedL s.data = true := h
    have h1 : beautifyL s.data = s.data := by rw [beautifyL, if_pos h']
    rw [h1]

/-- Closed instance of `beautify_outline_idempotent`: the text `"a 1"` is
accepted by `is_beautified` and returned unchanged. -/
theorem beautify_outline_idempotent_witness :
    is_beautified "a 1" = true ∧ beautify_outline "a 1" = "a 1" :=
  ⟨rfl, (beautify_outline_idempotent "a 1").2 rfl⟩

/-! ## The normalizer (`normalize_outline`, source lines 88-147) -/

/-- The character class `[\.\- ]` of the separator run. -/
def isSepClass (c : Char) : Bool := c = '.' || c = '-' || c = ' '

/-- The `(\d+|[IVXLCDM]+)\s*$` part of the page-number patterns: the rest of
the line must be a nonempty all-digit or all-uppercase-Roman token followed
only by whitespace; the token (with the trailing whitespace dropped) is
returned.  A shorter token cannot match because the character before it
would be a digit (resp. Roman letter), not part of the separator. -/
def numTrailTok (m : List Char) : Option (List Char) :=
  let r := rstripL m
  if !r.isEmpty && (r.all (fun c => isDigit c) || r.all (fun c => isRomanU c))
  then some r else none

/-- A match of `([\.\- ]{3,}|\(|\s)(\d+|[IVXLCDM]+)\s*$` starting at this
position, returning the numeral group.  The `{3,}` run must cover the whole
class-character run before the numeral (the numeral cannot start with a
class character), so only the full run length is tried. -/
def sepNumAt (l : List Char) : Option (List Char) :=
  let run := l.takeWhile (fun c => isSepClass c)
  match (if 3 ≤ run.length then numTrailTok (l.drop run.length) else none) with
  | some t => some t
  | none =>
    match l with
    | [] => none
    | c :: m =>
      if c = '(' then numTrailTok m
      else if isWs c then numTrailTok m else none

/-- The leftmost position (and numeral group) at which
`([\.\- ]{3,}|\(|\s)(\d+|[IVXLCDM]+)\s*$` matches. -/
def subFindA : List Char → Option (Nat × List Char)
  | [] => none
  | c :: rest =>
    match sepNumAt (c :: rest) with
    | some t => some (0, t)
    | none => (subFindA rest).map (fun p => (p.1 + 1, p.2))

/-- `re.sub(r'([\.\- ]{3,}|\(|\s)(\d+|[IVXLCDM]+)\s*$', r' \2', content)`:
replace the (end-anchored) match by a space and the numeral group. -/
def subA (c : List Char) : List Char :=
  match subFindA c with
  | some (i, t) => c.take i ++ ' ' :: t
  | none => c

/-- A match of `\s+(\d+|[IVXLCDM]+)\s*$` starting at this position (the
`\s+` must cover the whole whitespace run, as the numeral cannot start with
whitespace). -/
def sepBAt (l : List Char) : Option (List Char) :=
  let run := l.takeWhile (fun c => isWs c)
  if 1 ≤ run.length then numTrailTok (l.drop run.length) else none

def subFindB : List Char → Option (Nat × List Char)
  | [] => none
  | c :: rest =>
    match sepBAt (c :: rest) with
    | some t => some (0, t)
    | none => (subFindB rest).map (fun p => (p.1 + 1, p.2))

/-- `re.sub(r'\s+(\d+|[IVXLCDM]+)\s*$', r' \1', content)`. -/
def subB (c : List Char) : List Char :=
  match subFindB c with
  | some (i, t) => c.take i ++ ' ' :: t
  | none => c

/-- `re.search(r'([\.\- ]{3,}|\(|\s)(\d+|[IVXLCDM]+)\s*$', content)` as a
Bool: the search succeeds iff some position starts a match. -/
def hasPage (c : List Char) : Bool := (subFindA c).isSome

/-- After at least one digit, `\d+\.` then `\s`: keep consuming digits; at
the first non-digit it must be a period followed by a whitespace character
(a shorter digit run cannot match, as the next character would be a digit,
not a period). -/
def afterDigits : List Char → Bool
  | [] => false
  | c :: rest =>
    if isDigit c then afterDigits rest
    else decide (c = '.') &&
      (match rest with
       | w :: _ => isWs w
       | [] => false)

/-- `re.match(r'^(\d+\.|[A-Z]\.|\-|\*)\s', content)` as a Bool. -/
def startsMarker : List Char → Bool
  | [] => false
  | c :: rest =>
    if isDigit c then afterDigits rest
    else if 'A' ≤ c && c ≤ 'Z' then
      (match rest with
       | '.' :: w :: _ => isWs w
       | _ => false)
    else if c = '-' || c = '*' then
      (match rest with
       | w :: _ => isWs w
       | [] => false)
    else false

/-- The loop state of the first pass of `normalize_outline` (source lines
98-129): emitted clean lines, the open item, its recorded indent, and the
`last_line_was_terminated` flag. -/
structure NState where
  acc : List (List Char)
  cur : Option (List Char)
  curIndent : Nat
  lastTerm : Bool

def normInit : NState := ⟨[], none, 0, true⟩

/-- The `is_continuation` conjunction of source lines 112-115. -/
def isCont (st : NState) (content : List Char) : Bool :=
  !st.lastTerm && !hasPage content && !startsMarker content && !st.cur.isNone

/-- One iteration of the first-pass loop (source lines 103-129). -/
def normStep (st : NState) (line : List Char) : NState :=
  let indent := leadingWs line
  let content := stripL line
  if isCont st content then
    { st with cur := st.cur.map (fun c => c ++ ' ' :: content) }
  else
    { acc := st.acc ++ (match st.cur with
        | some c => [spaces (4 * st.curIndent) ++ c]
        | none => []),
      cur := some content,
      curIndent := indent / 4,
      lastTerm := hasPage content }

/-- Source line 97: expand tabs, drop blank lines, strip line ends. -/
def normLines (raw : List Char) : List (List Char) :=
  ((splitlinesL (expandtabs4 raw)).filter
    (fun l => !(stripL l).isEmpty)).map rstripL

/-- First pass of `normalize_outline`: run the loop and flush the last open
item (source lines 98-133). -/
def normPhase1 (lines : List (List Char)) : List (List Char) :=
  let st := lines.foldl normStep normInit
  st.acc ++ (match st.cur with
    | some c => [spaces (4 * st.curIndent) ++ c]
    | none => [])

/-- Second pass (source lines 136-145): per line, standardize the trailing
page token with the two substitutions and re-emit with the same indent. -/
def normPhase2Line (line : List Char) : List Char :=
  let indent := leadingWs line
  let content := lstripL line
  spaces indent ++ subB (subA content)

/-- `normalize_outline` (source lines 88-147). -/
def normalizeL (raw : List Char) : List Char :=
  joinN ((normPhase1 (normLines raw)).map normPhase2Line)

def normalize_outline (s : String) : String := ⟨normalizeL s.data⟩

/-- The sequence of `is_continuation` decisions taken by the first pass, one
per input line in order. -/
def contDecisionsFrom (st : NState) : List (List Char) → List Bool
  | [] => []
  | line :: rest =>
    isCont st (stripL line) :: contDecisionsFrom (normStep st line) rest

def contDecisions (lines : List (List Char)) : List Bool :=
  contDecisionsFrom normInit lines

lemma normStep_cur_some (st : NState) (line : List Char) :
    (normStep st line).cur.isNone = false := by
  rw [normStep]
  by_cases hc : isCont st (stripL line) = true
  · rw [if_pos hc]
    have hcur : st.cur.isNone = false := by
      rw [isCont] at hc
      simp only [Bool.and_eq_true, Bool.not_eq_true'] at hc
      exact hc.2
    cases hv : st.cur with
    | none => rw [hv] at hcur; exact absurd hcur (by decide)
    | some c => simp [hv]
  · rw [if_neg hc]
    rfl

lemma normStep_lastTerm (st : NState) (line : List Char) :
    (normStep st line).lastTerm = hasPage (stripL line) := by
  rw [normStep]
  by_cases hc : isCont st (stripL line) = true
  · rw [if_pos hc]
    rw [isCont] at hc
    simp only [Bool.and_eq_true, Bool.not_eq_true'] at hc
    show st.lastTerm = hasPage (stripL line)
    rw [hc.1.1.1, hc.1.1.2]
  · rw [if_neg hc]

/-- The continuation decisions after a processed line: the state's flag
always equals `hasPage` of the previous line, and an item is always open. -/
lemma contDecisionsFrom_spec (rest : List (List Char)) :
    ∀ (st : NState) (lprev : List Char),
      st.cur.isNone = false →
      st.lastTerm = hasPage (stripL lprev) →
      ∀ i, i < rest.length →
        ((contDecisionsFrom st rest).getD i false = true ↔
          (hasPage (stripL (if i = 0 then lprev else rest.getD (i - 1) [])) = false ∧
           hasPage (stripL (rest.getD i [])) = false ∧
           startsMarker (stripL (rest.getD i [])) = false)) := by
  induction rest with
  | nil =>
    intro st lprev h1 h2 i hi
    exact absurd hi (by simp)
  | cons l rest2 ih =>
    intro st lprev h1 h2 i hi
    cases i with
    | zero =>
      rw [contDecisionsFrom]
      simp only [List.getD_cons_zero, if_pos rfl]
      rw [isCont, h2, h1]
      simp only [Bool.and_eq_true, Bool.not_eq_true']
      constructor
      · rintro ⟨⟨⟨ha, hb⟩, hc⟩, -⟩
        exact ⟨ha, hb, hc⟩
      · rintro ⟨ha, hb, hc⟩
        exact ⟨⟨⟨ha, hb⟩, hc⟩, trivial⟩
    | succ j =>
      rw [contDecisionsFrom]
      simp only [List.getD_cons_succ]
      have hj : j < rest2.length := by simpa using hi
      have := ih (normStep st l) l (normStep_cur_some st l)
        (normStep_lastTerm st l) j hj
      rw [this]
      cases j with
      | zero => simp
      | succ j2 => simp

/-- C3 (amended): in the normalization scan, a kept line is appended to the
open item iff all of: it is not the first kept line (exactly then is an item
open), the previous kept line did not end with a detected page-number token,
the line itself carries no detected page-number token, and the line does not
match the list-marker pattern `^(\d+\.|[A-Z]\.|\-|\*)\s` — a marker must be
followed by a whitespace character. -/
theorem normalize_continuation_rule (raw : String) (i : Nat)
    (h : i < (normLines raw.data).length) :
    ((contDecisions (normLines raw.data)).getD i false = true ↔
      (1 ≤ i ∧
       hasPage (stripL ((normLines raw.data).getD (i - 1) [])) = false ∧
       hasPage (stripL ((normLines raw.data).getD i [])) = false ∧
       startsMarker (stripL ((normLines raw.data).getD i [])) = false)) := by
  rcases hls : normLines raw.data with _ | ⟨l0, rest⟩
  · exact absurd h (by rw [hls]; simp)
  rw [hls] at h
  cases i with
  | zero =>
    rw [contDecisions, contDecisionsFrom]
    simp only [List.getD_cons_zero]
    constructor
    · intro hfalse
      rw [show isCont normInit (stripL l0) = false from rfl] at hfalse
      exact absurd hfalse (by decide)
    · rintro ⟨h1, -⟩
      exact absurd h1 (by omega)
  | succ j =>
    rw [contDecisions, contDecisionsFrom]
    simp only [List.getD_cons_succ]
    have hj : j < rest.length := by simpa using h
    have hspec := contDecisionsFrom_spec rest (normStep normInit l0) l0
      (normStep_cur_some _ _) (normStep_lastTerm _ _) j hj
    rw [hspec]
    constructor
    · rintro ⟨ha, hb, hc⟩
      refine ⟨by omega, ?_, hb, hc⟩
      cases j with
      | zero => simpa using ha
      | succ j2 => simpa using ha
    · rintro ⟨-, ha, hb, hc⟩
      refine ⟨?_, hb, hc⟩
      cases j with
      | zero => simpa using ha
      | succ j2 => simpa using ha

/-- Closed instance of `normalize_continuation_rule` at the second line of
`"Chapter\nmore text"`, which is a continuation. -/
theorem normalize_continuation_rule_witness :
    1 < (normLines "Chapter\nmore text".data).length ∧
      ((contDecisions (normLines "Chapter\nmore text".data)).getD 1 false = true ↔
        (1 ≤ 1 ∧
         hasPage (stripL ((normLines "Chapter\nmore text".data).getD 0 [])) = false ∧
         hasPage (stripL ((normLines "Chapter\nmore text".data).getD 1 [])) = false ∧
         startsMarker (stripL ((normLines "Chapter\nmore text".data).getD 1 [])) = false)) :=
  ⟨by decide, normalize_continuation_rule "Chapter\nmore text" 1 (by decide)⟩

/-- Modelled from the claim's words (C3): "the line begins with a list
marker (digits followed by a period, a capital letter followed by a period,
a hyphen, or an asterisk)" — with no requirement that a whitespace character
follow the marker. -/
def claimDigitsDot : List Char → Bool
  | [] => false
  | c :: rest => if isDigit c then claimDigitsDot rest else decide (c = '.')

/-- Modelled from the claim's words (C3): begins-with-a-list-marker. -/
def claimMarker : List Char → Bool
  | [] => false
  | c :: rest =>
    if isDigit c then claimDigitsDot rest
    else if 'A' ≤ c && c ≤ 'Z' then
      (match rest with
       | '.' :: _ => true
       | _ => false)
    else c = '-' || c = '*'

/-- C3 counterexample: the line `"1.Beta"` begins with a list marker in the
claim's sense (digits followed by a period), so by the claim it must not be
appended; but the code's marker regex also requires a whitespace after the
marker, so the line IS appended to the open item `"Alpha"` and the
normalizer outputs the single joined line `"Alpha 1.Beta"`. -/
theorem normalize_marker_counterexample :
    normalize_outline "Alpha\n1.Beta" = "Alpha 1.Beta" ∧
      claimMarker (stripL "1.Beta".data) = true ∧
      (contDecisions (normLines "Alpha\n1.Beta".data)).getD 1 false = true := by
  exact ⟨rfl, rfl, rfl⟩

/-! ## The tree builder (`parse_clean_outline`, source lines 149-192, and
`parse_outline`, source lines 211-217) -/

/-- The outline node of the source: `{"title": ..., "level": ...,
"page_number": ..., "children": [...]}`.  `level` is an `Int` because the
synthetic root uses level `-1`. -/
structure Node where
  title : List Char
  level : Int
  page : Int
  children : List Node

/-- A stack entry during construction: a node whose children list is still
growing.  The Python code mutates node dicts in place; here a frame holds
the children collected so far and is turned into a `Node` when popped. -/
structure Frame where
  level : Int
  title : List Char
  page : Int
  children : List Node

def finalizeFrame (f : Frame) : Node := ⟨f.title, f.level, f.page, f.children⟩

/-- Popping a frame appends its finished node as the last child of the frame
below (the Python code appended the node to its parent at creation time and
mutates it in place; attaching on pop yields the same tree). -/
def attach (f g : Frame) : Frame :=
  { g with children := g.children ++ [finalizeFrame f] }

/-- `while level <= stack[-1]["level"]: stack.pop()` (source lines 185-186),
with fuel equal to the stack length, which the loop strictly decreases; the
loop never pops the synthetic root because every line's level is ≥ 0. -/
def popWhileFuel : Nat → Int → List Frame → List Frame
  | 0, _, s => s
  | Nat.succ n, lvl, f :: g :: rest =>
    if lvl ≤ f.level then popWhileFuel n lvl (attach f g :: rest)
    else f :: g :: rest
  | Nat.succ _, _, s => s

def popWhile (lvl : Int) (st : List Frame) : List Frame :=
  popWhileFuel st.length lvl st

/-- Close every remaining frame into its parent at the end of the scan. -/
def collapseFuel : Nat → List Frame → List Frame
  | 0, s => s
  | Nat.succ n, f :: g :: rest => collapseFuel n (attach f g :: rest)
  | Nat.succ _, s => s

def collapseStack (st : List Frame) : List Frame := collapseFuel st.length st

/-- The match of `re.search(r'\s+(\d+|[IVXLCDM]+)$', content)` (source line
167): anchored at the end, the numeral group is the maximal all-digit or
all-uppercase-Roman suffix run (decided by the last character; a shorter
run would be preceded by the same character class, not `\s`), and it must be
preceded by at least one whitespace character.  Returns
`(title stripped, numeral group)`. -/
def splitPage (c : List Char) : Option (List Char × List Char) :=
  let rc := c.reverse
  let run := match rc with
    | d :: _ =>
      if isDigit d then rc.takeWhile (fun x => isDigit x)
      else if isRomanU d then rc.takeWhile (fun x => isRomanU x)
      else []
    | [] => []
  if run.isEmpty then none
  else
    let rest := rc.drop run.length
    let w := rest.takeWhile (fun x => isWs x)
    if w.isEmpty then none
    else some (stripL ((rest.drop w.length).reverse), run.reverse)

/-- `level = indent // 4` of source line 163, as an `Int`. -/
def lineLevel (line : List Char) : Int := ((leadingWs line / 4 : Nat) : Int)

/-- Per-line extraction of source lines 162-175: title, level and page of
the line, plus the updated `last_page_number`. -/
def lineStep (last : Int) (line : List Char) :
    (List Char × Int × Int) × Int :=
  let content := lstripL line
  match splitPage content with
  | some (t, tok) =>
    let p := convertL tok
    ((t, lineLevel line, p), p)
  | none => ((content, lineLevel line, last), last)

/-- The synthetic root `{"title": "ROOT", "level": -1, "page_number": 0}`. -/
def rootFrame : Frame := ⟨-1, "ROOT".data, 0, []⟩

/-- Source lines 177-190: build the node, unwind the stack, attach, push. -/
def insertNode (st : List Frame) (d : List Char × Int × Int) : List Frame :=
  ⟨d.2.1, d.1, d.2.2, []⟩ :: popWhile d.2.1 st

/-- Source line 153 (the loop also re-skips blank lines, which the filter
has already removed). -/
def pcLines (l : List Char) : List (List Char) :=
  (splitlinesL l).filter (fun x => !(stripL x).isEmpty)

/-- `parse_clean_outline` (source lines 149-192): fold the lines through the
stack machine and return the synthetic root's children. -/
def parseCleanL (l : List Char) : List Node :=
  let res := (pcLines l).foldl
    (fun (s : List Frame × Int) line =>
      let r := lineStep s.2 line
      (insertNode s.1 r.1, r.2)) ([rootFrame], 0)
  match collapseStack res.1 with
  | [r] => r.children
  | _ => []

def parse_clean_outline (s : String) : List Node := parseCleanL s.data

/-- `parse_outline` (source lines 211-217): normalize, then parse. -/
def parse_outline (s : String) : List Node :=
  parse_clean_outline (normalize_outline s)

/-- C2 counterexample: indentation may jump by more than one unit and the
first line may be indented, so a child's level can exceed its parent's by
more than 1 (here `B` has level 2 under `A` of level 0) and a parentless
node can have level 1 rather than 0. -/
theorem parse_level_jump_counterexample :
    parse_clean_outline "A\n        B" =
      [⟨"A".data, 0, 0, [⟨"B".data, 2, 0, []⟩]⟩] ∧
    parse_clean_outline "    C" = [⟨"C".data, 1, 0, []⟩] := by
  exact ⟨rfl, rfl⟩

/-- C5 counterexample: a line ending in a separator and a lowercase Roman
numeral is NOT treated like the uppercase one: `"Intro ... iv"` keeps the
whole text as the title with page 0, while `"Intro ... IV"` is rewritten and
split into title `"Intro"` with page 4. -/
theorem lowercase_roman_counterexample :
    parse_outline "Intro ... iv" = [⟨"Intro ... iv".data, 0, 0, []⟩] ∧
    parse_outline "Intro ... IV" = [⟨"Intro".data, 0, 4, []⟩] := by
  exact ⟨rfl, rfl⟩

/-- C8: `parse_outline` is total: it is a plain function returning a forest
for every string — the embedding is a total Lean function mirroring the
Python, which has no raise statement on any path — and the empty input
yields the empty forest. -/
theorem parse_outline_total :
    parse_outline "" = [] ∧ ∀ s : String, ∃ forest, parse_outline s = forest := by
  exact ⟨rfl, fun s => ⟨parse_outline s, rfl⟩⟩

/-- Every child is strictly deeper than its parent, recursively. -/
inductive Deeper : Node → Prop where
  | mk (n : Node) :
      (∀ c ∈ n.children, n.level < c.level) →
      (∀ c ∈ n.children, Deeper c) → Deeper n

/-- All children collected so far in a frame are strictly deeper than the
frame's level and recursively well-nested. -/
def FrameOK (f : Frame) : Prop :=
  ∀ c ∈ f.children, f.level < c.level ∧ Deeper c

/-- Levels strictly increase from the bottom of the stack (the root at
level -1) to the top. -/
def StackLevels : List Frame → Prop
  | [] => False
  | [f] => f.level = -1
  | f :: g :: rest => g.level < f.level ∧ StackLevels (g :: rest)

def StackOK (st : List Frame) : Prop :=
  StackLevels st ∧ ∀ f ∈ st, FrameOK f

lemma deeper_of_frameOK {f : Frame} (h : FrameOK f) : Deeper (finalizeFrame f) :=
  Deeper.mk _ (fun c hc => (h c hc).1) (fun c hc => (h c hc).2)

lemma stackLevels_attach {f g : Frame} {rest : List Frame}
    (h : StackLevels (f :: g :: rest)) : StackLevels (attach f g :: rest) := by
  obtain ⟨-, h2⟩ := h
  cases rest with
  | nil => exact h2
  | cons r rest2 => exact h2

lemma frameOK_attach {f g : Frame} (hfg : g.level < f.level)
    (hf : FrameOK f) (hg : FrameOK g) : FrameOK (attach f g) := by
  intro c hc
  rw [attach] at hc
  simp only [List.mem_append, List.mem_singleton] at hc
  rcases hc with hc | hc
  · exact hg c hc
  · rw [hc]
    exact ⟨hfg, deeper_of_frameOK hf⟩

lemma stackOK_attach {f g : Frame} {rest : List Frame}
    (h : StackOK (f :: g :: rest)) : StackOK (attach f g :: rest) := by
  obtain ⟨hl, hall⟩ := h
  refine ⟨stackLevels_attach hl, ?_⟩
  intro x hx
  rcases hx with _ | ⟨-, hx⟩
  · exact frameOK_attach hl.1 (hall f (List.mem_cons_self _ _))
      (hall g (List.mem_cons_of_mem _ (List.mem_cons_self _ _)))
  · exact hall x (List.mem_cons_of_mem _ (List.mem_cons_of_mem _ hx))

lemma popWhileFuel_ok :
    ∀ (n : Nat) (lvl : Int) (st : List Frame), StackOK st →
      StackOK (popWhileFuel n lvl st) ∧
      (st.length ≤ n → 0 ≤ lvl →
        ∀ f, (popWhileFuel n lvl st).head? = some f → f.level < lvl) := by
  intro n
  induction n with
  | zero =>
    intro lvl st h
    refine ⟨h, ?_⟩
    intro hlen hlvl f hf
    cases st with
    | nil => exact absurd h.1 (by rw [StackLevels]; exact id)
    | cons a rest => exact absurd hlen (by simp)
  | succ n ih =>
    intro lvl st h
    match st with
    | [] => exact absurd h.1 (by rw [StackLevels]; exact id)
    | [f] =>
      rw [show popWhileFuel (n + 1) lvl [f] = [f] from rfl]
      refine ⟨h, ?_⟩
      intro hlen hlvl g hg
      have hgf : f = g := by simpa using hg
      subst hgf
      have hf : f.level = -1 := h.1
      rw [hf]
      omega
    | f :: g :: rest =>
      rw [show popWhileFuel (n + 1) lvl (f :: g :: rest) =
        (if lvl ≤ f.level then popWhileFuel n lvl (attach f g :: rest)
         else f :: g :: rest) from rfl]
      by_cases hc : lvl ≤ f.level
      · rw [if_pos hc]
        have h2 := stackOK_attach h
        have := ih lvl (attach f g :: rest) h2
        refine ⟨this.1, ?_⟩
        intro hlen hlvl x hx
        exact this.2 (by simp at hlen ⊢; omega) hlvl x hx
      · rw [if_neg hc]
        refine ⟨h, ?_⟩
        intro hlen hlvl x hx
        have hxf : f = x := by simpa using hx
        subst hxf
        omega

lemma stackOK_insert {st : List Frame} (h : StackOK st)
    {d : List Char × Int × Int} (hd : 0 ≤ d.2.1) :
    StackOK (insertNode st d) := by
  have hpop := popWhileFuel_ok st.length d.2.1 st h
  have hq := hpop.2 (le_refl _) hd
  obtain ⟨⟨hl, hall⟩, -⟩ := hpop
  rw [insertNode]
  constructor
  · show StackLevels (_ :: popWhile d.2.1 st)
    rcases hv : popWhile d.2.1 st with _ | ⟨top, rest2⟩
    · rw [popWhile] at hv
      rw [hv] at hl
      exact absurd hl (by rw [StackLevels]; exact id)
    · refine ⟨?_, ?_⟩
      · have := hq top (by rw [popWhile] at hv; rw [hv]; rfl)
        exact this
      · rw [popWhile] at hv
        rw [hv] at hl
        exact hl
  · intro f hf
    rcases hf with _ | ⟨-, hf⟩
    · intro c hc
      cases hc
    · exact hall f hf

lemma collapseFuel_ok :
    ∀ (n : Nat) (st : List Frame), StackOK st → st.length = n + 1 →
      ∃ r, collapseFuel (n + 1) st = [r] ∧ FrameOK r ∧ r.level = -1 := by
  intro n
  induction n with
  | zero =>
    intro st h hlen
    match st, hlen with
    | [f], _ =>
      exact ⟨f, rfl, h.2 f (List.mem_cons_self _ _), h.1⟩
  | succ n ih =>
    intro st h hlen
    match st, hlen with
    | f :: g :: rest, hlen =>
      rw [show collapseFuel (n + 1 + 1) (f :: g :: rest) =
        collapseFuel (n + 1) (attach f g :: rest) from rfl]
      exact ih (attach f g :: rest) (stackOK_attach h) (by simpa using hlen)

lemma lineStep_level (last : Int) (line : List Char) :
    (lineStep last line).1.2.1 = lineLevel line := by
  rw [lineStep]
  cases splitPage (lstripL line) with
  | none => rfl
  | some p => rfl

lemma lineLevel_nonneg (line : List Char) : 0 ≤ lineLevel line := by
  rw [lineLevel]
  exact Int.ofNat_nonneg _

lemma stackOK_fold (lines : List (List Char)) :
    ∀ s : List Frame × Int, StackOK s.1 →
      StackOK ((lines.foldl
        (fun (s : List Frame × Int) line =>
          let r := lineStep s.2 line
          (insertNode s.1 r.1, r.2)) s)).1 := by
  induction lines with
  | nil => intro s h; exact h
  | cons line rest ih =>
    intro s h
    rw [List.foldl_cons]
    apply ih
    show StackOK (insertNode s.1 (lineStep s.2 line).1)
    apply stackOK_insert h
    rw [lineStep_level]
    exact lineLevel_nonneg line

lemma rootFrame_ok : StackOK [rootFrame] := by
  constructor
  · rfl
  · intro f hf
    have hfr : f = rootFrame := by simpa using hf
    subst hfr
    intro c hc
    cases hc

/-- The forest produced by `parse_clean_outline` consists of nodes of
nonnegative level whose descendants are strictly deeper at every step. -/
lemma parseCleanL_nodes (l : List Char) :
    ∀ n ∈ parseCleanL l, 0 ≤ n.level ∧ Deeper n := by
  intro n hn
  simp only [parseCleanL] at hn
  set st := ((pcLines l).foldl
    (fun (s : List Frame × Int) line =>
      let r := lineStep s.2 line
      (insertNode s.1 r.1, r.2)) ([rootFrame], 0)).1 with hstv
  have hok : StackOK st := stackOK_fold (pcLines l) ([rootFrame], 0) rootFrame_ok
  rcases hempty : st with _ | ⟨a, rest⟩
  · rw [hempty] at hok
    exact absurd hok.1 (by rw [StackLevels]; exact id)
  obtain ⟨r, hr, hFOK, hlvl⟩ :=
    collapseFuel_ok rest.length st hok (by rw [hempty]; simp)
  have hcs : collapseStack st = [r] := by
    rw [collapseStack, hempty]
    simp only [List.length_cons]
    rw [hempty] at hr
    exact hr
  rw [hcs] at hn
  have hx := hFOK n hn
  rw [hlvl] at hx
  exact ⟨by omega, hx.2⟩

/-- C9: in every forest returned by `parse_clean_outline`, and hence by
`parse_outline`, every node's level is strictly greater than its parent's
level at every depth (the stack unwinds while `level <= stack[-1]["level"]`,
so a node is only ever appended under a strictly shallower parent). -/
theorem parse_forest_strictly_deeper (s : String) :
    (∀ n ∈ parse_clean_outline s, Deeper n) ∧
    (∀ n ∈ parse_outline s, Deeper n) := by
  constructor
  · intro n hn
    exact (parseCleanL_nodes s.data n hn).2
  · intro n hn
    exact (parseCleanL_nodes (normalize_outline s).data n hn).2

/-- C2 (amended): in every forest returned by `parse_outline` or
`parse_clean_outline`, every node's level is strictly greater than its
parent's (not necessarily parent's level + 1: indentation may jump by
several units), and every parentless node has level ≥ 0 (not necessarily
0: the first line may be indented). -/
theorem parse_forest_levels (s : String) :
    (∀ n ∈ parse_clean_outline s, 0 ≤ n.level ∧ Deeper n) ∧
    (∀ n ∈ parse_outline s, 0 ≤ n.level ∧ Deeper n) := by
  constructor
  · intro n hn
    exact parseCleanL_nodes s.data n hn
  · intro n hn
    exact parseCleanL_nodes (normalize_outline s).data n hn

lemma isRomanL_props {ch : Char} (h : isRomanL ch = true) :
    isDigit ch = false ∧ isRomanU ch = false ∧ isWs ch = false := by
  rw [isRomanL] at h
  simp only [Bool.or_eq_true, decide_eq_true_eq] at h
  rcases h with ((((((h | h) | h) | h) | h) | h) | h) <;> subst h <;>
    exact ⟨rfl, rfl, rfl⟩

lemma numTrailTok_none {m : List Char} {ch : Char}
    (hl : m.getLast? = some ch)
    (hch : isDigit ch = false ∧ isRomanU ch = false ∧ isWs ch = false) :
    numTrailTok m = none := by
  have hmne : m ≠ [] := by
    intro hz
    rw [hz] at hl
    exact absurd hl (by simp)
  have hrs : rstripL m = m := by
    rw [rstripL, dropWhile_eq_self_of_head, List.reverse_reverse]
    intro x hx
    rw [List.head?_reverse, hl] at hx
    have hx2 : ch = x := by simpa using hx
    rw [← hx2]
    exact hch.2.2
  rw [numTrailTok, hrs]
  have h1 : m.all (fun c => isDigit c) = false := by
    rcases ha : m.all (fun c => isDigit c) with _ | _
    · rfl
    · have := List.all_eq_true.mp ha ch (List.mem_of_mem_getLast? hl)
      rw [hch.1] at this
      exact absurd this (by decide)
  have h2 : m.all (fun c => isRomanU c) = false := by
    rcases ha : m.all (fun c => isRomanU c) with _ | _
    · rfl
    · have := List.all_eq_true.mp ha ch (List.mem_of_mem_getLast? hl)
      rw [hch.2.1] at this
      exact absurd this (by decide)
  rw [h1, h2]
  simp

lemma getLast?_drop {l : List Char} {k : Nat} {ch : Char}
    (hl : l.getLast? = some ch) (hne : l.drop k ≠ []) :
    (l.drop k).getLast? = some ch := by
  rw [← hl]
  conv_rhs => rw [← List.take_append_drop k l]
  rw [List.getLast?_append_of_ne_nil _ hne]

lemma sepNumAt_none {l : List Char} {ch : Char}
    (hl : l.getLast? = some ch)
    (hch : isDigit ch = false ∧ isRomanU ch = false ∧ isWs ch = false) :
    sepNumAt l = none := by
  have hnum : ∀ k : Nat, numTrailTok (l.drop k) = none := by
    intro k
    by_cases hk : l.drop k = []
    · rw [hk]
      rfl
    · exact numTrailTok_none (getLast?_drop hl hk) hch
  simp only [sepNumAt]
  have h1 : (if 3 ≤ (l.takeWhile (fun c => isSepClass c)).length
      then numTrailTok (l.drop (l.takeWhile (fun c => isSepClass c)).length)
      else none) = none := by
    by_cases h3 : 3 ≤ (l.takeWhile (fun c => isSepClass c)).length
    · rw [if_pos h3]
      exact hnum _
    · rw [if_neg h3]
  rw [h1]
  cases l with
  | nil => rfl
  | cons c0 m =>
    show (if c0 = '(' then numTrailTok m
      else if isWs c0 then numTrailTok m else none) = none
    have hm : numTrailTok m = none := hnum 1
    by_cases hp : c0 = '('
    · rw [if_pos hp]
      exact hm
    · rw [if_neg hp]
      by_cases hw : isWs c0 = true
      · rw [if_pos hw]
        exact hm
      · rw [if_neg hw]

lemma subFindA_none {l : List Char} {ch : Char}
    (hl : l.getLast? = some ch)
    (hch : isDigit ch = false ∧ isRomanU ch = false ∧ isWs ch = false) :
    subFindA l = none := by
  induction l with
  | nil => rfl
  | cons c rest ih =>
    rw [subFindA, sepNumAt_none hl hch]
    cases rest with
    | nil => rfl
    | cons c2 rest2 =>
      rw [ih (by rw [← hl]; rw [List.getLast?_cons_cons])]
      rfl

/-- C5 (amended): a line whose content ends with a lowercase Roman numeral
letter is NOT recognized as carrying a page-number token: the normalizer's
page-number detection fails and the tree builder's title/page split fails
(all the source's regexes use the uppercase class `[IVXLCDM]` only), so the
token stays in the title and the page number is inherited.  Only uppercase
Roman numerals and Arabic digits are recognized. -/
theorem lowercase_roman_not_detected (c : List Char) (ch : Char)
    (hlast : c.getLast? = some ch) (hlow : isRomanL ch = true) :
    hasPage c = false ∧ splitPage c = none := by
  have hch := isRomanL_props hlow
  constructor
  · rw [hasPage, subFindA_none hlast hch]
    rfl
  · have hcne : c ≠ [] := by
      intro hz
      rw [hz] at hlast
      exact absurd hlast (by simp)
    rcases hrc : c.reverse with _ | ⟨d, t⟩
    · exact absurd (by simpa using hrc) hcne
    have hd : d = ch := by
      have := List.head?_reverse c
      rw [hrc, hlast] at this
      simpa using this
    subst hd
    simp [splitPage, hrc, hch.1, hch.2.1]

/-- Closed instance of `lowercase_roman_not_detected` at `"Intro ... iv"`. -/
theorem lowercase_roman_not_detected_witness :
    "Intro ... iv".data.getLast? = some 'v' ∧ isRomanL 'v' = true ∧
      hasPage "Intro ... iv".data = false ∧ splitPage "Intro ... iv".data = none :=
  ⟨by decide, by decide,
    lowercase_roman_not_detected "Intro ... iv".data 'v' (by decide) (by decide)⟩

/-! ## Document order and page inheritance (claim C7) -/

mutual
/-- Preorder flattening: a node followed by its descendants. -/
def flattenNode : Node → List Node
  | ⟨t, lv, p, cs⟩ => ⟨t, lv, p, cs⟩ :: flattenForest cs
/-- Preorder flattening of a forest, left to right. -/
def flattenForest : List Node → List Node
  | [] => []
  | c :: rest => flattenNode c ++ flattenForest rest
end

/-- The `(title, level, page_number)` triple of a node. -/
def nodeData (n : Node) : List Char × Int × Int := (n.title, n.level, n.page)

/-- All data reachable from a frame, in creation order: the frame's own
node data followed by its completed subtrees. -/
def frameData (f : Frame) : List (List Char × Int × Int) :=
  (f.title, f.level, f.page) :: (flattenForest f.children).map nodeData

/-- All data in the stack, bottom (root) first — i.e. in creation order. -/
def stackData : List Frame → List (List Char × Int × Int)
  | [] => []
  | f :: rest => stackData rest ++ frameData f

/-- The per-line `(title, level, page)` triples of `parse_clean_outline`, in
line order, threading `last_page_number` through `lineStep`. -/
def lineDatas (last : Int) : List (List Char) → List (List Char × Int × Int)
  | [] => []
  | line :: rest =>
    (lineStep last line).1 :: lineDatas (lineStep last line).2 rest

lemma flattenForest_append (a b : List Node) :
    flattenForest (a ++ b) = flattenForest a ++ flattenForest b := by
  induction a with
  | nil => simp [flattenForest]
  | cons c rest ih =>
    rw [List.cons_append, flattenForest, flattenForest, ih, List.append_assoc]

lemma flattenNode_eq (n : Node) : flattenNode n = n :: flattenForest n.children := by
  cases n
  rw [flattenNode]

lemma frameData_attach (f g : Frame) :
    frameData (attach f g) = frameData g ++ frameData f := by
  rw [frameData, attach]
  show ((g.title, g.level, g.page) ::
      (flattenForest (g.children ++ [finalizeFrame f])).map nodeData) = _
  rw [flattenForest_append, List.map_append]
  rw [show flattenForest [finalizeFrame f] = flattenNode (finalizeFrame f) ++ [] from rfl]
  rw [flattenNode_eq, List.append_nil]
  rw [frameData, frameData, finalizeFrame]
  simp [nodeData]

lemma stackData_cons (f : Frame) (rest : List Frame) :
    stackData (f :: rest) = stackData rest ++ frameData f := rfl

lemma stackData_attach (f g : Frame) (rest : List Frame) :
    stackData (attach f g :: rest) = stackData (f :: g :: rest) := by
  rw [stackData_cons, frameData_attach, stackData_cons, stackData_cons]
  rw [List.append_assoc]

lemma popWhileFuel_stackData :
    ∀ (n : Nat) (lvl : Int) (st : List Frame),
      stackData (popWhileFuel n lvl st) = stackData st := by
  intro n
  induction n with
  | zero => intro lvl st; rfl
  | succ n ih =>
    intro lvl st
    match st with
    | [] => rfl
    | [f] => rfl
    | f :: g :: rest =>
      rw [show popWhileFuel (n + 1) lvl (f :: g :: rest) =
        (if lvl ≤ f.level then popWhileFuel n lvl (attach f g :: rest)
         else f :: g :: rest) from rfl]
      by_cases hc : lvl ≤ f.level
      · rw [if_pos hc, ih, stackData_attach]
      · rw [if_neg hc]

lemma collapseFuel_stackData :
    ∀ (n : Nat) (st : List Frame),
      stackData (collapseFuel n st) = stackData st := by
  intro n
  induction n with
  | zero => intro st; rfl
  | succ n ih =>
    intro st
    match st with
    | [] => rfl
    | [f] => rfl
    | f :: g :: rest =>
      rw [show collapseFuel (n + 1) (f :: g :: rest) =
        collapseFuel n (attach f g :: rest) from rfl]
      rw [ih, stackData_attach]

lemma insertNode_stackData (st : List Frame) (d : List Char × Int × Int) :
    stackData (insertNode st d) = stackData st ++ [d] := by
  rw [insertNode]
  rw [show stackData (⟨d.2.1, d.1, d.2.2, []⟩ :: popWhile d.2.1 st) =
    stackData (popWhile d.2.1 st) ++ frameData ⟨d.2.1, d.1, d.2.2, []⟩ from rfl]
  rw [popWhile, popWhileFuel_stackData]
  rfl

lemma stackData_fold (lines : List (List Char)) :
    ∀ (st : List Frame) (last : Int),
      stackData ((lines.foldl
        (fun (s : List Frame × Int) line =>
          let r := lineStep s.2 line
          (insertNode s.1 r.1, r.2)) (st, last))).1 =
      stackData st ++ lineDatas last lines := by
  induction lines with
  | nil => intro st last; simp [lineDatas]
  | cons line rest ih =>
    intro st last
    rw [List.foldl_cons, lineDatas]
    show stackData ((rest.foldl _
      (insertNode st (lineStep last line).1, (lineStep last line).2)).1) = _
    rw [ih, insertNode_stackData, List.append_assoc]
    rfl

/-- `parse_clean_outline` in document order: the preorder flattening of the
returned forest carries exactly the per-line `(title, level, page)` data, in
line order. -/
lemma flatten_parse (l : List Char) :
    (flattenForest (parseCleanL l)).map nodeData = lineDatas 0 (pcLines l) := by
  simp only [parseCleanL]
  set st := ((pcLines l).foldl
    (fun (s : List Frame × Int) line =>
      let r := lineStep s.2 line
      (insertNode s.1 r.1, r.2)) ([rootFrame], 0)).1 with hstv
  have hok : StackOK st := stackOK_fold (pcLines l) ([rootFrame], 0) rootFrame_ok
  rcases hempty : st with _ | ⟨a, rest⟩
  · rw [hempty] at hok
    exact absurd hok.1 (by rw [StackLevels]; exact id)
  obtain ⟨r, hr, hFOK, hlvl⟩ :=
    collapseFuel_ok rest.length st hok (by rw [hempty]; simp)
  have hcs : collapseStack st = [r] := by
    rw [collapseStack, hempty]
    simp only [List.length_cons]
    rw [hempty] at hr
    exact hr
  rw [← hempty, hcs]
  have h1 : stackData (collapseStack st) = stackData st := by
    rw [collapseStack]
    exact collapseFuel_stackData _ _
  have h2 : stackData st = stackData [rootFrame] ++ lineDatas 0 (pcLines l) := by
    rw [hstv]
    exact stackData_fold (pcLines l) [rootFrame] 0
  rw [hcs] at h1
  have h3 : frameData r = frameData rootFrame ++ lineDatas 0 (pcLines l) := by
    have hx := h1.trans h2
    rw [stackData_cons, stackData_cons] at hx
    simpa [stackData] using hx
  rw [show frameData rootFrame = [("ROOT".data, (-1 : Int), (0 : Int))] from rfl]
    at h3
  rw [frameData] at h3
  have := (List.cons.injEq _ _ _ _).mp h3
  exact this.2

lemma findSome?_append_single {α β : Type} (A : List α) (x : α)
    (f : α → Option β) :
    (A ++ [x]).findSome? f =
      (match A.findSome? f with
       | some v => some v
       | none => f x) := by
  induction A with
  | nil =>
    have h : List.findSome? f [x] =
        (match f x with | some b => some b | none => none) := rfl
    rw [List.nil_append, h]
    cases f x with
    | none => rfl
    | some v => rfl
  | cons a A2 ih =>
    have h : ∀ t : List α, List.findSome? f (a :: t) =
        (match f a with | some b => some b | none => List.findSome? f t) :=
      fun t => rfl
    rw [List.cons_append, h, h]
    cases f a with
    | none => exact ih
    | some v => rfl

/-- Page values in `lineDatas`: a line with no page token receives the
converted token of the nearest preceding line that has one, defaulting to
the incoming `last_page_number`. -/
lemma lineDatas_page :
    ∀ (ls : List (List Char)) (last : Int) (i : Nat), i < ls.length →
      splitPage (lstripL (ls.getD i [])) = none →
      ((lineDatas last ls).getD i ([], 0, 0)).2.2 =
        (((ls.take i).reverse.findSome?
          (fun l2 => (splitPage (lstripL l2)).map (fun q => convertL q.2))).getD
          last) := by
  intro ls
  induction ls with
  | nil =>
    intro last i hi
    exact absurd hi (by simp)
  | cons line rest ih =>
    intro last i hi hno
    cases i with
    | zero =>
      rw [lineDatas]
      simp only [List.getD_cons_zero] at hno ⊢
      rw [lineStep, hno]
      rfl
    | succ j =>
      rw [lineDatas]
      simp only [List.getD_cons_succ] at hno ⊢
      have hj : j < rest.length := by simpa using hi
      rw [ih (lineStep last line).2 j hj hno]
      rw [show (line :: rest).take (j + 1) = line :: rest.take j from rfl]
      rw [show (line :: rest.take j).reverse = (rest.take j).reverse ++ [line]
        from by simp]
      rw [findSome?_append_single]
      cases hA : (rest.take j).reverse.findSome?
          (fun l2 => (splitPage (lstripL l2)).map (fun q => convertL q.2)) with
      | some v => rfl
      | none =>
        cases h0 : splitPage (lstripL line) with
        | none =>
          rw [lineStep, h0]
          rfl
        | some p =>
          rw [lineStep, h0]
          rfl

/-- C7: in the forest of `parse_clean_outline`, taken in document order
(preorder = line order), an entry whose line lacks an explicit trailing
numeral token receives the converted page number of the nearest preceding
line in line sequence that has one, or 0 if no preceding line has one. -/
theorem parse_page_inheritance (s : String) (i : Nat)
    (h : i < (pcLines s.data).length)
    (hno : splitPage (lstripL ((pcLines s.data).getD i [])) = none) :
    (((flattenForest (parse_clean_outline s)).map nodeData).getD i
        ([], 0, 0)).2.2 =
      ((((pcLines s.data).take i).reverse.findSome?
        (fun l2 => (splitPage (lstripL l2)).map (fun q => convertL q.2))).getD
        0) := by
  rw [show (flattenForest (parse_clean_outline s)).map nodeData =
    lineDatas 0 (pcLines s.data) from flatten_parse s.data]
  exact lineDatas_page (pcLines s.data) 0 i h hno

/-- Closed instance of `parse_page_inheritance` at the second line of
`"A 5\nB"`, which has no page token and inherits page 5. -/
theorem parse_page_inheritance_witness :
    1 < (pcLines "A 5\nB".data).length ∧
    splitPage (lstripL ((pcLines "A 5\nB".data).getD 1 [])) = none ∧
    (((flattenForest (parse_clean_outline "A 5\nB")).map nodeData).getD 1
        ([], 0, 0)).2.2 =
      ((((pcLines "A 5\nB".data).take 1).reverse.findSome?
        (fun l2 => (splitPage (lstripL l2)).map (fun q => convertL q.2))).getD
        0) :=
  ⟨by decide, by decide,
    parse_page_inheritance "A 5\nB" 1 (by decide) (by decide)⟩
